import Mathlib

set_option autoImplicit false

/-!
# Verification of the react-story-tree traversal core

Shallow embedding of the tree traversal and path-construction subsystem of
the `react-story-tree` repository (`traverseTree`, `concatenatePath`,
`findRootNode`, `buildFlowStructure`, `buildPathFromNodes`), together with
proofs settling the behavioural claims about it.

Modelling conventions:
* JavaScript `Map<string, StoryNode>` becomes an association list
  `List (String × StoryNode)`; `TreeStructure` (a plain object) becomes
  `List (String × List String)`.  Lookup takes the first matching key,
  which agrees with JS objects/Maps (whose keys are unique).
* An optional string field (`decisionText?: string`) becomes
  `Option String`; JS truthiness of such a field is "present and
  non-empty".
* A thrown exception becomes `Except`: a thrown error discards all
  accumulated state, exactly as in the source.
* The recursive DFS of the source always terminates (each recursive call
  strictly grows the per-path visited set, whose members are drawn from
  the finitely many ids mentioned in the input), but Lean cannot see this
  directly, so the embedding threads a fuel argument.  `traverseTree`
  supplies fuel that provably never runs out (the counting argument lives
  in `dfs_ok_or_circular` and `bfsLoop_ne_fuelOut` below), so the
  `.fuelOut` result is unreachable and the embedding is faithful.
-/

/-- A story node, as in `src/types/story.ts`.  The `customId` and
`metadata` fields are opaque to the traversal core and are omitted. -/
structure StoryNode where
  id : String
  title : String
  content : String
  decisionText : Option String := none
deriving Repr, DecidableEq

/-- `TreeStructure` from `src/types/story.ts`: node id to ordered children. -/
abbrev TreeStructure := List (String × List String)

/-- The `Map<string, StoryNode>` of node data. -/
abbrev NodeMap := List (String × StoryNode)

/-- A complete root-to-leaf path, as in `src/types/story.ts`. -/
structure StoryPath where
  nodeIds : List String
  nodes : List StoryNode
  decisions : List String
deriving Repr, DecidableEq

/-- `nodes.get(id)` on the JS `Map`. -/
def nmGet (nodes : NodeMap) (id : String) : Option StoryNode :=
  (List.find? (fun p => p.1 == id) nodes).map Prod.snd

/-- `structure[id]` on the JS object: `undefined` when the key is absent. -/
def structFind (struct : TreeStructure) (id : String) : Option (List String) :=
  (List.find? (fun p => p.1 == id) struct).map Prod.snd

/-- `structure[id] || []`: the children array, empty when the key is absent
(an empty array is truthy in JS, so `|| []` only fires on `undefined`). -/
def childrenOf (struct : TreeStructure) (id : String) : List String :=
  (structFind struct id).getD []

/-- All ids appearing in some child array of the structure. -/
def allChildIds (struct : TreeStructure) : List String :=
  (struct.map Prod.snd).flatten

/-- Errors thrown by `traverseTree` (`src/utils/traversal.ts`).  `.fuelOut`
is an artefact of the fuel-threaded embedding and is proved unreachable. -/
inductive TError where
  | rootNotFound (id : String)
  | notFound (id : String)
  | circular (cyclePath : List String)
  | fuelOut
deriving Repr, DecidableEq

/-- Index of the first occurrence of `a` (JS `Array.prototype.indexOf`,
restricted to the present case; the source only evaluates it when `a` is
in the array). -/
def idxOfStr : List String → String → Nat
  | [], _ => 0
  | x :: xs, a => if x = a then 0 else idxOfStr xs a + 1

/-- Sequences the recursive calls on the children of a node, collecting
their emitted paths in order; the first thrown error propagates, exactly
as an exception escaping the `for` loop of the source. -/
def collectResults : List (Except TError (List StoryPath)) → Except TError (List StoryPath)
  | [] => .ok []
  | .error e :: _ => .error e
  | .ok out :: rest =>
    match collectResults rest with
    | .error e => .error e
    | .ok acc => .ok (out ++ acc)

/-- The decision-accumulator update of `dfs`: append `node.decisionText`
exactly when this is not the first node of the path (`currentPath` is
non-empty) and the text is truthy (present and non-empty). -/
def dStep (node : StoryNode) (currentPath : List String) (currentDecisions : List String) :
    List String :=
  match node.decisionText with
  | some s => if currentPath.length > 0 ∧ s ≠ "" then currentDecisions ++ [s] else currentDecisions
  | none => currentDecisions

/-- The recursive `dfs` helper inside `traverseTree`
(`src/utils/traversal.ts`), with explicit fuel. -/
def dfs (nodes : NodeMap) (struct : TreeStructure) :
    Nat → String → List String → List StoryNode → List String → List String →
    Except TError (List StoryPath)
  | 0, _, _, _, _, _ => .error .fuelOut
  | fuel + 1, currentId, currentPath, currentNodes, currentDecisions, visitedInPath =>
    if visitedInPath.contains currentId then
      .error (.circular (currentPath.drop (idxOfStr currentPath currentId) ++ [currentId]))
    else
      match nmGet nodes currentId with
      | none => .error (.notFound currentId)
      | some node =>
        let newPath := currentPath ++ [currentId]
        let newNodes := currentNodes ++ [node]
        let newDecisions := dStep node currentPath currentDecisions
        let newVisited := currentId :: visitedInPath
        let children := childrenOf struct currentId
        if children.isEmpty then
          .ok [⟨newPath, newNodes, newDecisions⟩]
        else
          collectResults (children.map fun childId =>
            dfs nodes struct fuel childId newPath newNodes newDecisions newVisited)

/-- Fuel that provably suffices for every input: one more than the number
of ids the traversal can ever visit. -/
def pathFuel (struct : TreeStructure) (rootId : String) : Nat :=
  (rootId :: allChildIds struct).length + 1

/-- `traverseTree` from `src/utils/traversal.ts`. -/
def traverseTree (nodes : NodeMap) (struct : TreeStructure) (rootId : String) :
    Except TError (List StoryPath) :=
  if (nmGet nodes rootId).isNone then .error (.rootNotFound rootId)
  else dfs nodes struct (pathFuel struct rootId) rootId [] [] [] []

instance {ε α : Type} [DecidableEq ε] [DecidableEq α] : DecidableEq (Except ε α) := fun x y =>
  match x, y with
  | .ok u, .ok v =>
    if h : u = v then .isTrue (by rw [h]) else .isFalse (by intro hc; cases hc; exact h rfl)
  | .error u, .error v =>
    if h : u = v then .isTrue (by rw [h]) else .isFalse (by intro hc; cases hc; exact h rfl)
  | .ok _, .error _ => .isFalse (by intro hc; cases hc)
  | .error _, .ok _ => .isFalse (by intro hc; cases hc)

/-! ## The narrative serializer (`concatenatePath`, `src/utils/traversal.ts`) -/

/-- The segment pushed for one node: `# {title}\n{content}`. -/
def nodeSegment (n : StoryNode) : String :=
  "# " ++ n.title ++ "\n" ++ n.content

/-- The segment list built by the loop of `concatenatePath`: at index `i`
it pushes the node segment, then `[Decision: {decisions[i]}]` whenever
`i < decisions.length` and `decisions[i]` is truthy (non-empty).  Both
indices advance together, so the lists are consumed in lockstep. -/
def mkSegments : List StoryNode → List String → List String
  | [], _ => []
  | n :: ns, [] => nodeSegment n :: mkSegments ns []
  | n :: ns, d :: ds =>
    if d = "" then nodeSegment n :: mkSegments ns ds
    else nodeSegment n :: ("[Decision: " ++ d ++ "]") :: mkSegments ns ds

/-- `Array.prototype.join('\n\n')`. -/
def joinSegs : List String → String
  | [] => ""
  | [s] => s
  | s :: rest => s ++ "\n\n" ++ joinSegs rest

/-- Is a character JS whitespace (the cases relevant here). -/
def isWs (c : Char) : Bool :=
  c = ' ' || c = '\n' || c = '\t' || c = '\r'

/-- `String.prototype.trim()`, modelled character-wise. -/
def jsTrim (s : String) : String :=
  ⟨(((s.data.dropWhile isWs).reverse.dropWhile isWs).reverse)⟩

/-- `concatenatePath` from `src/utils/traversal.ts`.  (The `if (!node)`
guard of the source is unrepresentable here: list elements always exist.) -/
def concatenatePath (path : StoryPath) : String :=
  jsTrim (joinSegs (mkSegments path.nodes path.decisions))

/-- The decision contributed by a node: its `decisionText` when present
and non-empty (JS truthiness), nothing otherwise. -/
def decOf (n : StoryNode) : Option String :=
  match n.decisionText with
  | some s => if s = "" then none else some s
  | none => none

/-- Modelled from the spec (§4.4): the serializer as the spec describes
it — a decision segment sits *between* a node and the next exactly when
the next node in the sequence has a non-empty `decisionText`, and the
inserted text is that next node's `decisionText`.  Used as the comparison
point for the claim about `concatenatePath`. -/
def specSegments : List StoryNode → List String
  | [] => []
  | [n] => [nodeSegment n]
  | n :: m :: rest =>
    match decOf m with
    | some s => nodeSegment n :: ("[Decision: " ++ s ++ "]") :: specSegments (m :: rest)
    | none => nodeSegment n :: specSegments (m :: rest)

/-- Modelled from the spec (§4.4): full spec-side serializer. -/
def specConcatenate (path : StoryPath) : String :=
  jsTrim (joinSegs (specSegments path.nodes))

/-- No run of three or more consecutive newline characters. -/
def noTriple3 : List Char → Bool
  | [] => true
  | c :: l => !(c = '\n' && l.take 2 = ['\n', '\n']) && noTriple3 l

/-! ## The root resolver (`findRootNode`, `src/analysis/analyzer.ts`) -/

/-- Errors thrown by `findRootNode`. -/
inductive RootError where
  | noRoot
  | multipleRoots (candidates : List String)
deriving Repr, DecidableEq

/-- The root-candidate list of `findRootNode`: ids that are keys of the
node map and never appear in any children array of the structure. -/
def rootCandidates (struct : TreeStructure) (nodes : NodeMap) : List String :=
  (nodes.map Prod.fst).filter (fun id => !(allChildIds struct).contains id)

/-- `findRootNode` from `src/analysis/analyzer.ts`. -/
def findRootNode (struct : TreeStructure) (nodes : NodeMap) : Except RootError String :=
  match rootCandidates struct nodes with
  | [] => .error .noRoot
  | [r] => .ok r
  | _ :: _ :: _ => .error (.multipleRoots (rootCandidates struct nodes))

/-! ## The flow-structure builder (`buildFlowStructure`, `src/utils/flow-builder.ts`) -/

/-- A React Flow node as built by `buildFlowStructure`: id, the constant
`'custom'` type, the placeholder position, and the data payload. -/
structure FlowNode where
  id : String
  nodeType : String
  position : Int × Int
  storyNode : StoryNode
  isLeaf : Bool
deriving Repr, DecidableEq

/-- A React Flow edge as built by `buildFlowStructure`. -/
structure FlowEdge where
  eid : String
  source : String
  target : String
  edgeType : String
  label : Option String
deriving Repr, DecidableEq

/-- The nodes/edges pair returned by `buildFlowStructure`. -/
structure FlowStructureR where
  nodes : List FlowNode
  edges : List FlowEdge
deriving Repr, DecidableEq

/-- Errors thrown by `buildFlowStructure`; `.fuelOut` is an embedding
artefact proved unreachable for the fuel `buildFlowStructure` supplies. -/
inductive FError where
  | emptyInput
  | notFoundInNodes (id : String)
  | notFoundInStruct (id : String)
  | fuelOut
deriving Repr, DecidableEq

/-- The edge-creation loop over the children of `currentId`: validates
that each child is in the node map (throwing at the first missing one,
as the source `for` loop does) and builds one edge per child listing,
labelled with the child's `decisionText`. -/
def buildEdges (nodes : NodeMap) (currentId : String) :
    List String → Except FError (List FlowEdge)
  | [] => .ok []
  | childId :: rest =>
    match nmGet nodes childId with
    | none => .error (.notFoundInNodes childId)
    | some childNode =>
      match buildEdges nodes currentId rest with
      | .error e => .error e
      | .ok es =>
        .ok (⟨"edge-" ++ currentId ++ "-" ++ childId, currentId, childId,
              "smoothstep", childNode.decisionText⟩ :: es)

/-- The BFS `while` loop of `buildFlowStructure`, with explicit fuel. -/
def bfsLoop (nodes : NodeMap) (struct : TreeStructure) :
    Nat → List String → List String → List FlowNode → List FlowEdge →
    Except FError FlowStructureR
  | 0, _, _, _, _ => .error .fuelOut
  | fuel + 1, queue, visited, accN, accE =>
    match queue with
    | [] => .ok ⟨accN, accE⟩
    | currentId :: rest =>
      if visited.contains currentId then
        bfsLoop nodes struct fuel rest visited accN accE
      else
        match nmGet nodes currentId with
        | none => .error (.notFoundInNodes currentId)
        | some storyNode =>
          match structFind struct currentId with
          | none => .error (.notFoundInStruct currentId)
          | some childIds =>
            match buildEdges nodes currentId childIds with
            | .error e => .error e
            | .ok es =>
              bfsLoop nodes struct fuel (rest ++ childIds) (currentId :: visited)
                (accN ++ [⟨currentId, "custom", (0, 0), storyNode, childIds.isEmpty⟩])
                (accE ++ es)

/-- Fuel that provably suffices for the BFS: every iteration either pops a
queue entry or processes a fresh id, so the total is bounded by the
initial queue plus all child listings. -/
def bfsFuel (struct : TreeStructure) : Nat :=
  (struct.map (fun p => p.2.length)).sum + 2

/-- `buildFlowStructure` from `src/utils/flow-builder.ts`. -/
def buildFlowStructure (nodes : NodeMap) (struct : TreeStructure) (rootId : String) :
    Except FError FlowStructureR :=
  if nodes.isEmpty then .error .emptyInput
  else if (nmGet nodes rootId).isNone then .error (.notFoundInNodes rootId)
  else if (structFind struct rootId).isNone then .error (.notFoundInStruct rootId)
  else bfsLoop nodes struct (bfsFuel struct) [rootId] [] [] []

/-! ## The manual path builder (`buildPathFromNodes`) -/

/-- Errors of `buildPathFromNodes`. -/
inductive BuildPathError where
  | emptyPath
  | notFound (id : String)
  | invalidConnection (a b : String) (validChildren : List String)
deriving Repr, DecidableEq

/-- Modelled from the spec: the implementation of `buildPathFromNodes` is
absent from the provided sources (only its test suite appears), so this
follows §4.3 of the spec.  Fails with `EmptyPath` on an empty id list;
checks that *all* ids are in the node map before building (first missing
id reported); when a structure is supplied, validates that every
consecutive pair is parent→child in it, reporting the offending pair and
the valid alternatives; decisions follow the same rule as `traverseTree`
(own `decisionText`, skipped for the first node, skipped when absent). -/
def buildPathFromNodes (nodeIds : List String) (nodes : NodeMap)
    (struct : Option TreeStructure := none) : Except BuildPathError StoryPath :=
  if nodeIds.isEmpty then .error .emptyPath
  else
    match nodeIds.find? (fun id => (nmGet nodes id).isNone) with
    | some missing => .error (.notFound missing)
    | none =>
      let resolved := nodeIds.filterMap (nmGet nodes)
      let path : StoryPath :=
        ⟨nodeIds, resolved, (resolved.drop 1).filterMap decOf⟩
      match struct with
      | none => .ok path
      | some s =>
        match (nodeIds.zip (nodeIds.drop 1)).find?
            (fun pr => !(childrenOf s pr.1).contains pr.2) with
        | some pr => .error (.invalidConnection pr.1 pr.2 (childrenOf s pr.1))
        | none => .ok path

/-! ## Reachability and acyclicity -/

/-- `b` is reachable from `a` by following child links. -/
inductive Reach (struct : TreeStructure) : String → String → Prop where
  | refl (a : String) : Reach struct a a
  | tail {a b c : String} : Reach struct a b → c ∈ childrenOf struct b → Reach struct a c

/-- The structure has no cycle: no node can reach itself in one or more
steps. -/
def Acyclic (struct : TreeStructure) : Prop :=
  ∀ a b : String, b ∈ childrenOf struct a → ¬ Reach struct b a

/-- A cycle is reachable from `root`. -/
def HasCycleFrom (struct : TreeStructure) (root : String) : Prop :=
  ∃ a b : String, Reach struct root a ∧ b ∈ childrenOf struct a ∧ Reach struct b a

/-- Every id the traversal can encounter (the root, and every id listed
as a child) is present in the node map.  This is the claims' "referenced
ids are all present" hypothesis, as a decidable check. -/
def allPresent (nodes : NodeMap) (struct : TreeStructure) (rootId : String) : Bool :=
  (nmGet nodes rootId).isSome &&
    (allChildIds struct).all (fun c => (nmGet nodes c).isSome)

/-- The spec's root-candidate notion (§4.2): a key of the node map that
never appears in any child sequence. -/
def Candidate (struct : TreeStructure) (nodes : NodeMap) (c : String) : Prop :=
  c ∈ nodes.map Prod.fst ∧ c ∉ allChildIds struct

/-- Is this a `NotFound`-category error of `buildFlowStructure`? -/
def FError.isNF : FError → Bool
  | .notFoundInNodes _ => true
  | .notFoundInStruct _ => true
  | _ => false

/-- The inputs on which the flow builder's BFS hits a `NotFound` error:
the root is missing from the node map or the structure, or some node
reachable from the root lacks a structure entry or lists a child missing
from the node map. -/
def FlowBad (nodes : NodeMap) (struct : TreeStructure) (rootId : String) : Prop :=
  (nmGet nodes rootId).isNone ∨ (structFind struct rootId).isNone ∨
    ∃ a, Reach struct rootId a ∧
      ((structFind struct a).isNone ∨ ∃ c ∈ childrenOf struct a, (nmGet nodes c).isNone)

/-- The last node id of a path (paths are never empty). -/
def lastId (p : StoryPath) : String :=
  p.nodeIds.getLastD ""

/-- `a` occurs contiguously inside `b`. -/
def SubSeg (a b : List Char) : Prop :=
  ∃ u v, b = u ++ a ++ v

/-- No two adjacent newline characters. -/
def noDouble2 : List Char → Bool
  | [] => true
  | c :: l => !(c = '\n' && l.take 1 = ['\n']) && noDouble2 l

/-- A well-behaved serializer segment: non-empty, no whitespace at either
end, and no two adjacent newlines inside. -/
def goodSeg (s : String) : Prop :=
  s.data ≠ [] ∧ isWs (s.data.headD ' ') = false ∧
    isWs (s.data.getLastD ' ') = false ∧ noDouble2 s.data = true

/-- Total number of child listings of entries whose key is not yet
visited: the termination measure of the flow builder's BFS (together with
the queue length). -/
def sumUnvisited (struct : TreeStructure) (vis : List String) : Nat :=
  ((struct.filter (fun p => !vis.contains p.1)).map (fun p => p.2.length)).sum

/-! ## Theorems -/

lemma mem_rootCandidates {struct : TreeStructure} {nodes : NodeMap} {c : String} :
    c ∈ rootCandidates struct nodes ↔ Candidate struct nodes c := by
  simp [rootCandidates, Candidate, List.mem_filter, List.elem_iff]

lemma rootCandidates_nodup {struct : TreeStructure} {nodes : NodeMap}
    (h : (nodes.map Prod.fst).Nodup) : (rootCandidates struct nodes).Nodup :=
  h.filter _

lemma nodup_singleton_of_unique {l : List String} {a : String}
    (hnd : l.Nodup) (ha : a ∈ l) (huniq : ∀ x ∈ l, x = a) : l = [a] := by
  cases l with
  | nil => cases ha
  | cons x t =>
    have hx : x = a := huniq x (List.mem_cons_self x t)
    subst hx
    have ht : t = [] := by
      cases t with
      | nil => rfl
      | cons y u =>
        have hy : y = x := huniq y (List.mem_cons_of_mem x (List.mem_cons_self y u))
        exact absurd (hy ▸ List.mem_cons_self y u) (List.nodup_cons.mp hnd).1
    rw [ht]

/-- C7: `findRootNode` treats an id as a root candidate iff it is a key of
the node mapping and never appears in any child sequence of the structure;
it fails with `NoRootFound` when zero candidates exist, fails with
`MultipleRootsFound` listing all candidates when more than one exists, and
returns the unique candidate otherwise. -/
theorem findRootNode_spec (struct : TreeStructure) (nodes : NodeMap)
    (hkeys : (nodes.map Prod.fst).Nodup) :
    (findRootNode struct nodes = .error .noRoot ↔ ∀ c, ¬ Candidate struct nodes c) ∧
    (∀ r, findRootNode struct nodes = .ok r ↔
      (Candidate struct nodes r ∧ ∀ c, Candidate struct nodes c → c = r)) ∧
    (∀ l, findRootNode struct nodes = .error (.multipleRoots l) →
      (2 ≤ l.length ∧ l.Nodup ∧ ∀ c, (c ∈ l ↔ Candidate struct nodes c))) ∧
    (∀ c₁ c₂, c₁ ≠ c₂ → Candidate struct nodes c₁ → Candidate struct nodes c₂ →
      ∃ l, findRootNode struct nodes = .error (.multipleRoots l) ∧
        ∀ c, (c ∈ l ↔ Candidate struct nodes c)) := by
  refine ⟨?_, ?_, ?_, ?_⟩
  · constructor
    · intro h c hc
      unfold findRootNode at h
      rcases hcand : rootCandidates struct nodes with _ | ⟨x, _ | ⟨y, t⟩⟩ <;> rw [hcand] at h
      · exact absurd (mem_rootCandidates.mpr hc) (by rw [hcand]; exact List.not_mem_nil c)
      · exact absurd h (by simp)
      · exact absurd h (by simp)
    · intro h
      have hcand : rootCandidates struct nodes = [] :=
        List.eq_nil_iff_forall_not_mem.mpr (fun c hc => h c (mem_rootCandidates.mp hc))
      unfold findRootNode
      rw [hcand]
  · intro r
    constructor
    · intro h
      unfold findRootNode at h
      rcases hcand : rootCandidates struct nodes with _ | ⟨x, _ | ⟨y, t⟩⟩ <;> rw [hcand] at h
      · exact absurd h (by simp)
      · have hx : x = r := by simpa using h
        subst hx
        refine ⟨mem_rootCandidates.mp (by rw [hcand]; exact List.mem_cons_self x []), ?_⟩
        intro c hc
        have hm : c ∈ rootCandidates struct nodes := mem_rootCandidates.mpr hc
        rw [hcand] at hm
        simpa using hm
      · exact absurd h (by simp)
    · rintro ⟨hr, huniq⟩
      have hcand : rootCandidates struct nodes = [r] :=
        nodup_singleton_of_unique (rootCandidates_nodup hkeys)
          (mem_rootCandidates.mpr hr)
          (fun x hx => huniq x (mem_rootCandidates.mp hx))
      unfold findRootNode
      rw [hcand]
  · intro l h
    unfold findRootNode at h
    rcases hcand : rootCandidates struct nodes with _ | ⟨x, _ | ⟨y, t⟩⟩ <;> rw [hcand] at h
    · exact absurd h (by simp)
    · exact absurd h (by simp)
    · have hl : l = rootCandidates struct nodes := by
        simp only [Except.error.injEq, RootError.multipleRoots.injEq] at h
        rw [← h]
        exact hcand.symm
      refine ⟨?_, ?_, ?_⟩
      · rw [hl, hcand]
        simp
      · rw [hl]
        exact rootCandidates_nodup hkeys
      · intro c
        rw [hl]
        exact mem_rootCandidates
  · intro c₁ c₂ hne h1 h2
    have m1 : c₁ ∈ rootCandidates struct nodes := mem_rootCandidates.mpr h1
    have m2 : c₂ ∈ rootCandidates struct nodes := mem_rootCandidates.mpr h2
    rcases hcand : rootCandidates struct nodes with _ | ⟨x, _ | ⟨y, t⟩⟩
    · rw [hcand] at m1
      cases m1
    · rw [hcand] at m1 m2
      simp only [List.mem_singleton] at m1 m2
      exact absurd (m1.trans m2.symm) hne
    · refine ⟨rootCandidates struct nodes, ?_, fun c => mem_rootCandidates⟩
      unfold findRootNode
      rw [hcand]

theorem findRootNode_spec_witness :
    (((([("A", ⟨"A", "t", "c", none⟩), ("B", ⟨"B", "t", "c", none⟩),
        ("C", ⟨"C", "t", "c", none⟩)] : NodeMap)).map Prod.fst).Nodup) ∧
    findRootNode [("A", ["B", "C"]), ("B", []), ("C", [])]
      [("A", ⟨"A", "t", "c", none⟩), ("B", ⟨"B", "t", "c", none⟩),
        ("C", ⟨"C", "t", "c", none⟩)] = .ok "A" := by
  refine ⟨by decide, ?_⟩
  have h := (findRootNode_spec [("A", ["B", "C"]), ("B", []), ("C", [])]
    [("A", ⟨"A", "t", "c", none⟩), ("B", ⟨"B", "t", "c", none⟩),
      ("C", ⟨"C", "t", "c", none⟩)] (by decide)).2.1 "A"
  refine h.mpr ⟨⟨by decide, by decide⟩, ?_⟩
  intro c hc
  rcases hc with ⟨hmem, hnc⟩
  simp only [List.map_cons, List.map_nil, List.mem_cons, List.not_mem_nil, or_false] at hmem
  rcases hmem with h1 | h1 | h1
  · exact h1
  · exact absurd (by rw [h1]; decide) hnc
  · exact absurd (by rw [h1]; decide) hnc

lemma dfs_zero (nodes : NodeMap) (struct : TreeStructure)
    (cur : String) (path : List String) (ns : List StoryNode)
    (ds : List String) (vis : List String) :
    dfs nodes struct 0 cur path ns ds vis = .error .fuelOut := rfl

lemma dfs_succ (nodes : NodeMap) (struct : TreeStructure) (fuel : Nat)
    (cur : String) (path : List String) (ns : List StoryNode)
    (ds : List String) (vis : List String) :
    dfs nodes struct (fuel + 1) cur path ns ds vis =
      if vis.contains cur then
        .error (.circular (path.drop (idxOfStr path cur) ++ [cur]))
      else
        match nmGet nodes cur with
        | none => .error (.notFound cur)
        | some node =>
          if (childrenOf struct cur).isEmpty then
            .ok [⟨path ++ [cur], ns ++ [node], dStep node path ds⟩]
          else
            collectResults ((childrenOf struct cur).map fun childId =>
              dfs nodes struct fuel childId (path ++ [cur]) (ns ++ [node])
                (dStep node path ds) (cur :: vis)) := rfl

lemma collect_mem {l : List (Except TError (List StoryPath))} {out : List StoryPath}
    (h : collectResults l = .ok out) {p : StoryPath} (hp : p ∈ out) :
    ∃ o, .ok o ∈ l ∧ p ∈ o := by
  induction l generalizing out with
  | nil =>
    simp only [collectResults, Except.ok.injEq] at h
    subst h
    cases hp
  | cons r rest ih =>
    cases r with
    | error e => simp [collectResults] at h
    | ok o1 =>
      simp only [collectResults] at h
      cases hrest : collectResults rest with
      | error e => rw [hrest] at h; cases h
      | ok acc =>
        rw [hrest] at h
        simp only [Except.ok.injEq] at h
        subst h
        rcases List.mem_append.mp hp with hp1 | hp2
        · exact ⟨o1, List.mem_cons_self _ _, hp1⟩
        · rcases ih hrest hp2 with ⟨o, ho, hpo⟩
          exact ⟨o, List.mem_cons_of_mem _ ho, hpo⟩

lemma dStep_spec (node : StoryNode) (path : List String) (ns : List StoryNode)
    (ds : List String) (hlen : path.length = ns.length)
    (hds : ds = (ns.drop 1).filterMap decOf) :
    dStep node path ds = ((ns ++ [node]).drop 1).filterMap decOf := by
  cases hns : ns with
  | nil =>
    have hp : path = [] := List.length_eq_zero.mp (by rw [hlen, hns]; rfl)
    subst hp
    rw [hns] at hds
    simp only [List.drop_nil, List.filterMap_nil] at hds
    subst hds
    cases hdt : node.decisionText with
    | none => simp [dStep, hdt]
    | some s => simp [dStep, hdt]
  | cons m ms =>
    have hplen : path.length > 0 := by rw [hlen, hns]; simp
    have hdrop : ((ns ++ [node]).drop 1) = ns.drop 1 ++ [node] := by
      rw [List.drop_append_of_le_length]
      rw [hns]
      simp
    rw [← hns] at *
    rw [hdrop, List.filterMap_append, ← hds]
    cases hdt : node.decisionText with
    | none => simp [dStep, hdt, decOf]
    | some s =>
      by_cases hs : s = ""
      · subst hs
        simp [dStep, hdt, decOf]
      · simp [dStep, hdt, decOf, hs, hplen]

lemma dfs_ok_decisions (nodes : NodeMap) (struct : TreeStructure) :
    ∀ (fuel : Nat) (cur : String) (path : List String) (ns : List StoryNode)
      (ds : List String) (vis : List String) (out : List StoryPath),
      dfs nodes struct fuel cur path ns ds vis = .ok out →
      path.length = ns.length →
      ds = (ns.drop 1).filterMap decOf →
      ∀ p ∈ out, p.decisions = (p.nodes.drop 1).filterMap decOf := by
  intro fuel
  induction fuel with
  | zero =>
    intro cur path ns ds vis out h _ _ p hp
    rw [dfs_zero] at h
    cases h
  | succ fuel ih =>
    intro cur path ns ds vis out h hlen hds p hp
    rw [dfs_succ] at h
    by_cases hvis : vis.contains cur
    · rw [if_pos hvis] at h; cases h
    · rw [if_neg hvis] at h
      cases hn : nmGet nodes cur with
      | none => rw [hn] at h; cases h
      | some node =>
        rw [hn] at h
        dsimp only at h
        by_cases hch : (childrenOf struct cur).isEmpty
        · rw [if_pos hch] at h
          simp only [Except.ok.injEq] at h
          subst h
          simp only [List.mem_singleton] at hp
          subst hp
          exact dStep_spec node path ns ds hlen hds
        · rw [if_neg hch] at h
          rcases collect_mem h hp with ⟨o, ho, hpo⟩
          rcases List.mem_map.mp ho with ⟨c, _, hc⟩
          refine ih c (path ++ [cur]) (ns ++ [node]) (dStep node path ds) (cur :: vis) o
            hc ?_ ?_ p hpo
          · simp [hlen]
          · exact dStep_spec node path ns ds hlen hds

lemma pathFuel_eq (struct : TreeStructure) (rootId : String) :
    pathFuel struct rootId = (allChildIds struct).length + 1 + 1 := by
  simp [pathFuel]

/-- C4: every path emitted by `traverseTree` has as its `decisions`
sequence exactly the non-empty `decisionText` values of the non-root
nodes along the path, in path order (nodes lacking `decisionText` and the
root contribute nothing); and a single node with no children yields
exactly one path of length 1 with empty decisions. -/
theorem traverseTree_decisions (nodes : NodeMap) (struct : TreeStructure) (rootId : String) :
    (∀ out, traverseTree nodes struct rootId = .ok out →
      ∀ p ∈ out, p.decisions = (p.nodes.drop 1).filterMap decOf) ∧
    (∀ n, nmGet nodes rootId = some n → childrenOf struct rootId = [] →
      traverseTree nodes struct rootId = .ok [⟨[rootId], [n], []⟩]) := by
  constructor
  · intro out h p hp
    unfold traverseTree at h
    by_cases hr : (nmGet nodes rootId).isNone
    · rw [if_pos hr] at h; cases h
    · rw [if_neg hr] at h
      exact dfs_ok_decisions nodes struct (pathFuel struct rootId) rootId [] [] [] [] out
        h rfl rfl p hp
  · intro n hn hch
    unfold traverseTree
    rw [if_neg (by simp [hn])]
    rw [pathFuel_eq, dfs_succ]
    rw [if_neg (by simp)]
    rw [hn]
    dsimp only
    rw [hch]
    simp [dStep]
    cases n.decisionText with
    | none => simp
    | some s => simp

theorem traverseTree_decisions_witness :
    nmGet [("solo", ⟨"solo", "t", "c", some "x"⟩)] "solo" = some ⟨"solo", "t", "c", some "x"⟩ ∧
    childrenOf [("solo", [])] "solo" = [] ∧
    traverseTree [("solo", ⟨"solo", "t", "c", some "x"⟩)] [("solo", [])] "solo" =
      .ok [⟨["solo"], [⟨"solo", "t", "c", some "x"⟩], []⟩] :=
  ⟨by decide, by decide,
    (traverseTree_decisions [("solo", ⟨"solo", "t", "c", some "x"⟩)] [("solo", [])] "solo").2
      ⟨"solo", "t", "c", some "x"⟩ (by decide) (by decide)⟩

/-- C5 counterexample: `concatenatePath` keys decision segments by
*position in `decisions`*, not by the next node's `decisionText`.  On a
path whose middle node has no `decisionText` while the last one does
(so `decisions = ["Go"]`, produced by `traverseTree`'s rule), the code
emits `[Decision: Go]` after the *first* node, while the spec's rule
places it before the *last* node; the two serializations differ. -/
theorem concatenatePath_spec_cex :
    concatenatePath ⟨["a", "b", "c"],
        [⟨"a", "A", "ca", none⟩, ⟨"b", "B", "cb", none⟩, ⟨"c", "C", "cc", some "Go"⟩],
        ["Go"]⟩ =
      "# A\nca\n\n[Decision: Go]\n\n# B\ncb\n\n# C\ncc" ∧
    specConcatenate ⟨["a", "b", "c"],
        [⟨"a", "A", "ca", none⟩, ⟨"b", "B", "cb", none⟩, ⟨"c", "C", "cc", some "Go"⟩],
        ["Go"]⟩ =
      "# A\nca\n\n# B\ncb\n\n[Decision: Go]\n\n# C\ncc" ∧
    (⟨["a", "b", "c"],
        [⟨"a", "A", "ca", none⟩, ⟨"b", "B", "cb", none⟩, ⟨"c", "C", "cc", some "Go"⟩],
        ["Go"]⟩ : StoryPath).decisions =
      ((⟨["a", "b", "c"],
        [⟨"a", "A", "ca", none⟩, ⟨"b", "B", "cb", none⟩, ⟨"c", "C", "cc", some "Go"⟩],
        ["Go"]⟩ : StoryPath).nodes.drop 1).filterMap decOf := by
  refine ⟨by decide, by decide, by decide⟩

lemma decOf_ne_empty {n : StoryNode} {s : String} (h : decOf n = some s) : s ≠ "" := by
  unfold decOf at h
  cases hdt : n.decisionText with
  | none => rw [hdt] at h; cases h
  | some t =>
    rw [hdt] at h
    dsimp only at h
    by_cases ht : t = ""
    · rw [if_pos ht] at h; cases h
    · rw [if_neg ht] at h
      simp only [Option.some.injEq] at h
      rw [← h]
      exact ht

lemma mkSegments_aligned :
    ∀ ns : List StoryNode, (∀ n ∈ ns.drop 1, (decOf n).isSome) →
      mkSegments ns ((ns.drop 1).filterMap decOf) = specSegments ns := by
  intro ns
  induction ns with
  | nil => intro _; rfl
  | cons n rest ih =>
    intro hall
    cases rest with
    | nil => rfl
    | cons m rest2 =>
      have hm : (decOf m).isSome := hall m (by simp)
      rcases Option.isSome_iff_exists.mp hm with ⟨d, hd⟩
      have hdne : d ≠ "" := decOf_ne_empty hd
      have hds : (((n :: m :: rest2).drop 1).filterMap decOf) =
          d :: ((( m :: rest2).drop 1).filterMap decOf) := by
        simp [hd]
      rw [hds]
      show mkSegments (n :: m :: rest2) (d :: _) = specSegments (n :: m :: rest2)
      rw [mkSegments, if_neg hdne]
      have hspec : specSegments (n :: m :: rest2) =
          nodeSegment n :: ("[Decision: " ++ d ++ "]") :: specSegments (m :: rest2) := by
        rw [specSegments, hd]
      rw [hspec]
      have ih2 := ih (fun x hx => hall x (List.mem_cons_of_mem m hx))
      simp only [List.drop_succ_cons, List.drop_zero] at ih2 ⊢
      rw [ih2]

/-- C5 (amended): `concatenatePath` inserts `[Decision: {decisions[i]}]`
after the `i`-th node's segment exactly when `decisions[i]` exists and is
non-empty; whenever the path's `decisions` are positionally aligned with
its non-root nodes — every non-root node has a truthy `decisionText` and
`decisions` is what `traverseTree` computes for the path — this coincides
with the spec's rule of inserting the next node's `decisionText` between
the two nodes. -/
theorem concatenatePath_aligned (p : StoryPath)
    (hall : ∀ n ∈ p.nodes.drop 1, (decOf n).isSome)
    (hds : p.decisions = (p.nodes.drop 1).filterMap decOf) :
    concatenatePath p = specConcatenate p := by
  unfold concatenatePath specConcatenate
  rw [hds, mkSegments_aligned p.nodes hall]

theorem concatenatePath_aligned_witness :
    (∀ n ∈ ([⟨"a", "A", "ca", none⟩, ⟨"b", "B", "cb", some "Go"⟩] : List StoryNode).drop 1,
      (decOf n).isSome) ∧
    concatenatePath ⟨["a", "b"],
        [⟨"a", "A", "ca", none⟩, ⟨"b", "B", "cb", some "Go"⟩], ["Go"]⟩ =
      specConcatenate ⟨["a", "b"],
        [⟨"a", "A", "ca", none⟩, ⟨"b", "B", "cb", some "Go"⟩], ["Go"]⟩ :=
  ⟨by decide,
    concatenatePath_aligned
      ⟨["a", "b"], [⟨"a", "A", "ca", none⟩, ⟨"b", "B", "cb", some "Go"⟩], ["Go"]⟩
      (by decide) (by decide)⟩

lemma noTriple3_cons (c : Char) (l : List Char) :
    noTriple3 (c :: l) = (!(c = '\n' && l.take 2 = ['\n', '\n']) && noTriple3 l) := rfl

lemma noDouble2_cons (c : Char) (l : List Char) :
    noDouble2 (c :: l) = (!(c = '\n' && l.take 1 = ['\n']) && noDouble2 l) := rfl

lemma nlFree_noDouble2 {l : List Char} (h : ∀ c ∈ l, c ≠ '\n') : noDouble2 l = true := by
  induction l with
  | nil => rfl
  | cons c t ih =>
    rw [noDouble2_cons]
    have hc : c ≠ '\n' := h c (by simp)
    simp [hc, ih (fun x hx => h x (List.mem_cons_of_mem c hx))]

lemma noDouble2_append_single {x y : List Char} (hx : ∀ c ∈ x, c ≠ '\n')
    (hy : ∀ c ∈ y, c ≠ '\n') : noDouble2 (x ++ '\n' :: y) = true := by
  induction x with
  | nil =>
    rw [List.nil_append, noDouble2_cons]
    cases y with
    | nil => simp [noDouble2]
    | cons d t =>
      have hd : d ≠ '\n' := hy d (by simp)
      simp only [List.take_succ_cons, List.take_zero]
      simp [hd, nlFree_noDouble2 hy]
  | cons c x' ih =>
    have hc : c ≠ '\n' := hx c (by simp)
    rw [List.cons_append, noDouble2_cons]
    simp [hc, ih (fun a ha => hx a (List.mem_cons_of_mem c ha))]

lemma noDouble2_noTriple3 {l : List Char} (h : noDouble2 l = true) : noTriple3 l = true := by
  induction l with
  | nil => rfl
  | cons c t ih =>
    rw [noDouble2_cons] at h
    simp only [Bool.and_eq_true] at h
    rcases h with ⟨h1, h2⟩
    rw [noTriple3_cons]
    simp only [Bool.and_eq_true]
    refine ⟨?_, ih h2⟩
    by_cases hc : c = '\n'
    · subst hc
      have ht1 : t.take 1 ≠ ['\n'] := by
        intro hcon
        simp [hcon] at h1
      have ht2 : t.take 2 ≠ ['\n', '\n'] := by
        intro hcon
        apply ht1
        have h12 : t.take 1 = (t.take 2).take 1 := by
          rw [List.take_take]
          norm_num
        rw [h12, hcon]
        rfl
      simp [ht2]
    · simp [hc]

lemma noTriple3_nn_cons {J : List Char} (hJh : J.head? ≠ some '\n')
    (hJ : noTriple3 J = true) : noTriple3 ('\n' :: '\n' :: J) = true := by
  have h1 : J.take 1 ≠ ['\n'] := by
    intro hcon
    cases J with
    | nil => cases hcon
    | cons d t =>
      apply hJh
      simp only [List.take_succ_cons, List.take_zero, List.cons.injEq] at hcon
      simp [hcon.1]
  have h2 : J.take 2 ≠ ['\n', '\n'] := by
    intro hcon
    apply h1
    have h12 : J.take 1 = (J.take 2).take 1 := by
      rw [List.take_take]
      norm_num
    rw [h12, hcon]
    rfl
  simp [noTriple3_cons, List.take_succ_cons, h1, h2, hJ]

lemma noTriple3_block_append {J : List Char} (hJh : J.head? ≠ some '\n')
    (hJ : noTriple3 J = true) :
    ∀ a : List Char, a.getLast? ≠ some '\n' → noTriple3 a = true →
      noTriple3 (a ++ '\n' :: '\n' :: J) = true := by
  intro a
  induction a with
  | nil =>
    intro _ _
    rw [List.nil_append]
    exact noTriple3_nn_cons hJh hJ
  | cons c a' ih =>
    intro halast ha
    rw [List.cons_append, noTriple3_cons]
    cases a' with
    | nil =>
      have hc : c ≠ '\n' := by
        intro hcon
        exact halast (by simp [hcon])
      simp only [List.nil_append, Bool.and_eq_true]
      refine ⟨by simp [hc], noTriple3_nn_cons hJh hJ⟩
    | cons d a'' =>
      have hlast' : (d :: a'').getLast? ≠ some '\n' := by
        rw [List.getLast?_cons_cons] at halast
        exact halast
      simp only [noTriple3_cons, Bool.and_eq_true] at ha
      rcases ha with ⟨hf, ha'⟩
      have hdda : noTriple3 (d :: a'') = true := by
        rw [noTriple3_cons]
        simp only [Bool.and_eq_true]
        exact ha'
      have hrec := ih hlast' hdda
      rw [List.cons_append]
      simp only [Bool.and_eq_true]
      refine ⟨?_, by rw [← List.cons_append]; exact hrec⟩
      cases a'' with
      | nil =>
        have hd : d ≠ '\n' := by
          intro hcon
          exact halast (by simp [hcon])
        simp [List.take_succ_cons, hd]
      | cons e a''' =>
        simp only [List.take_succ_cons, List.take_zero] at hf ⊢
        rw [List.cons_append]
        simp only [List.take_succ_cons, List.take_zero]
        exact hf

lemma joinSegs_cons₂ (s s2 : String) (rest : List String) :
    joinSegs (s :: s2 :: rest) = s ++ "\n\n" ++ joinSegs (s2 :: rest) := rfl

lemma joinSegs_cons₂_data (s s2 : String) (rest : List String) :
    (joinSegs (s :: s2 :: rest)).data =
      s.data ++ '\n' :: '\n' :: (joinSegs (s2 :: rest)).data := by
  rw [joinSegs_cons₂]
  show (s.data ++ ['\n', '\n']) ++ (joinSegs (s2 :: rest)).data = _
  rw [List.append_assoc]
  rfl

lemma isWs_nl : isWs '\n' = true := rfl

lemma head?_ne_nl_of_headD {l : List Char} (h : isWs (l.headD ' ') = false) :
    l.head? ≠ some '\n' := by
  cases l with
  | nil => simp
  | cons c t =>
    simp only [List.headD_cons] at h
    intro hcon
    simp only [List.head?_cons, Option.some.injEq] at hcon
    rw [hcon] at h
    cases h

lemma getLast?_ne_nl_of_getLastD {l : List Char} (h : isWs (l.getLastD ' ') = false) :
    l.getLast? ≠ some '\n' := by
  intro hcon
  have : l.getLastD ' ' = '\n' := by
    rw [List.getLastD_eq_getLast?, hcon]
    rfl
  rw [this] at h
  cases h

lemma joinSegs_good :
    ∀ (rest : List String) (s : String), (∀ x ∈ s :: rest, goodSeg x) →
      (joinSegs (s :: rest)).data ≠ [] ∧
      isWs ((joinSegs (s :: rest)).data.headD ' ') = false ∧
      isWs ((joinSegs (s :: rest)).data.getLastD ' ') = false ∧
      noTriple3 (joinSegs (s :: rest)).data = true := by
  intro rest
  induction rest with
  | nil =>
    intro s hall
    rcases hall s (by simp) with ⟨h1, h2, h3, h4⟩
    exact ⟨h1, h2, h3, noDouble2_noTriple3 h4⟩
  | cons s2 rest2 ih =>
    intro s hall
    rcases hall s (by simp) with ⟨h1, h2, h3, h4⟩
    rcases ih s2 (fun x hx => hall x (List.mem_cons_of_mem s hx)) with ⟨j1, j2, j3, j4⟩
    rw [joinSegs_cons₂_data]
    refine ⟨by simp, ?_, ?_, ?_⟩
    · cases hd : s.data with
      | nil => exact absurd hd h1
      | cons c t =>
        rw [hd] at h2
        simpa using h2
    · rw [List.getLastD_eq_getLast?, List.getLast?_append_of_ne_nil _ (by simp)]
      have hsplit : ('\n' :: '\n' :: (joinSegs (s2 :: rest2)).data) =
          ['\n', '\n'] ++ (joinSegs (s2 :: rest2)).data := rfl
      rw [hsplit, List.getLast?_append_of_ne_nil _ j1]
      rw [List.getLastD_eq_getLast?] at j3
      exact j3
    · exact noTriple3_block_append (head?_ne_nl_of_headD j2) j4 s.data
        (getLast?_ne_nl_of_getLastD h3) (noDouble2_noTriple3 h4)

lemma jsTrim_eq_self {s : String} (hne : s.data ≠ [])
    (hh : isWs (s.data.headD ' ') = false) (hl : isWs (s.data.getLastD ' ') = false) :
    jsTrim s = s := by
  unfold jsTrim
  cases hd : s.data with
  | nil => exact absurd hd hne
  | cons c t =>
    rw [hd] at hh
    simp only [List.headD_cons] at hh
    have hdrop1 : (c :: t).dropWhile isWs = c :: t := by
      rw [List.dropWhile_cons, if_neg (by simp [hh])]
    rw [hdrop1]
    cases hrev : (c :: t).reverse with
    | nil => exact absurd hrev (by simp)
    | cons d r =>
      have hdlast : (c :: t).getLast? = some d := by
        rw [← List.head?_reverse, hrev]
        rfl
      have hdws : isWs d = false := by
        rw [hd, List.getLastD_eq_getLast?, hdlast] at hl
        exact hl
      have hdrop2 : (d :: r).dropWhile isWs = d :: r := by
        rw [List.dropWhile_cons, if_neg (by simp [hdws])]
      rw [hdrop2]
      have hrr : (d :: r).reverse = c :: t := by
        rw [← hrev, List.reverse_reverse]
      rw [hrr, ← hd]

lemma nodeSegment_data (n : StoryNode) :
    (nodeSegment n).data = '#' :: ' ' :: (n.title.data ++ '\n' :: n.content.data) := by
  show (((['#', ' '] ++ n.title.data) ++ ['\n']) ++ n.content.data : List Char) = _
  simp

lemma decSegment_data (d : String) :
    ("[Decision: " ++ d ++ "]").data = "[Decision: ".data ++ (d.data ++ [']']) := by
  show (("[Decision: ".data ++ d.data) ++ ([']'] : List Char)) = _
  rw [List.append_assoc]

lemma nodeSegment_good {n : StoryNode} (ht : ∀ c ∈ n.title.data, c ≠ '\n')
    (hc1 : n.content.data ≠ []) (hc2 : ∀ c ∈ n.content.data, c ≠ '\n')
    (hc3 : isWs (n.content.data.getLastD ' ') = false) :
    goodSeg (nodeSegment n) := by
  rw [goodSeg, nodeSegment_data]
  refine ⟨by simp, by simp [isWs], ?_, ?_⟩
  · have hshape : ('#' :: ' ' :: (n.title.data ++ '\n' :: n.content.data) : List Char) =
        ('#' :: ' ' :: n.title.data ++ ['\n']) ++ n.content.data := by
      simp
    rw [hshape, List.getLastD_eq_getLast?, List.getLast?_append_of_ne_nil _ hc1]
    rw [List.getLastD_eq_getLast?] at hc3
    exact hc3
  · have hshape : ('#' :: ' ' :: (n.title.data ++ '\n' :: n.content.data) : List Char) =
        ('#' :: ' ' :: n.title.data) ++ '\n' :: n.content.data := by
      simp
    rw [hshape]
    refine noDouble2_append_single ?_ hc2
    intro c hcm
    simp only [List.mem_cons] at hcm
    rcases hcm with rfl | rfl | hcm
    · decide
    · decide
    · exact ht c hcm

lemma decSegment_good {d : String} (hd : ∀ c ∈ d.data, c ≠ '\n') :
    goodSeg ("[Decision: " ++ d ++ "]") := by
  rw [goodSeg, decSegment_data]
  refine ⟨by simp, ?_, ?_, ?_⟩
  · show isWs ((('[' :: "Decision: ".data) ++ (d.data ++ [']'])).headD ' ') = false
    simp [isWs]
  · rw [List.getLastD_eq_getLast?, List.getLast?_append_of_ne_nil _ (by simp),
      List.getLast?_append_of_ne_nil _ (by simp)]
    decide
  · refine nlFree_noDouble2 ?_
    intro c hcm
    rcases List.mem_append.mp hcm with hcm | hcm
    · fin_cases hcm <;> decide
    · rcases List.mem_append.mp hcm with hcm | hcm
      · exact hd c hcm
      · fin_cases hcm <;> decide

lemma mkSegments_shape : ∀ (ns : List StoryNode) (ds : List String),
    ∀ s ∈ mkSegments ns ds,
      (∃ n ∈ ns, s = nodeSegment n) ∨ (∃ d ∈ ds, s = "[Decision: " ++ d ++ "]") := by
  intro ns
  induction ns with
  | nil =>
    intro ds s hs
    cases hs
  | cons n rest ih =>
    intro ds s hs
    cases ds with
    | nil =>
      simp only [mkSegments, List.mem_cons] at hs
      rcases hs with rfl | hs
      · exact .inl ⟨n, by simp, rfl⟩
      · rcases ih [] s hs with ⟨m, hm, rfl⟩ | ⟨d, hd, _⟩
        · exact .inl ⟨m, List.mem_cons_of_mem n hm, rfl⟩
        · cases hd
    | cons d ds' =>
      rw [mkSegments] at hs
      by_cases hde : d = ""
      · rw [if_pos hde] at hs
        simp only [List.mem_cons] at hs
        rcases hs with rfl | hs
        · exact .inl ⟨n, by simp, rfl⟩
        · rcases ih ds' s hs with ⟨m, hm, rfl⟩ | ⟨e, he, rfl⟩
          · exact .inl ⟨m, List.mem_cons_of_mem n hm, rfl⟩
          · exact .inr ⟨e, List.mem_cons_of_mem d he, rfl⟩
      · rw [if_neg hde] at hs
        simp only [List.mem_cons] at hs
        rcases hs with rfl | rfl | hs
        · exact .inl ⟨n, by simp, rfl⟩
        · exact .inr ⟨d, by simp, rfl⟩
        · rcases ih ds' s hs with ⟨m, hm, rfl⟩ | ⟨e, he, rfl⟩
          · exact .inl ⟨m, List.mem_cons_of_mem n hm, rfl⟩
          · exact .inr ⟨e, List.mem_cons_of_mem d he, rfl⟩

lemma nodeSegment_mem_mkSegments : ∀ (ns : List StoryNode) (ds : List String)
    (n : StoryNode), n ∈ ns → nodeSegment n ∈ mkSegments ns ds := by
  intro ns
  induction ns with
  | nil =>
    intro ds n hn
    cases hn
  | cons m rest ih =>
    intro ds n hn
    simp only [List.mem_cons] at hn
    rcases hn with rfl | hn
    · cases ds with
      | nil => exact List.mem_cons_self _ _
      | cons d ds' =>
        rw [mkSegments]
        by_cases hde : d = ""
        · rw [if_pos hde]
          exact List.mem_cons_self _ _
        · rw [if_neg hde]
          exact List.mem_cons_self _ _
    · cases ds with
      | nil => exact List.mem_cons_of_mem _ (ih [] n hn)
      | cons d ds' =>
        rw [mkSegments]
        by_cases hde : d = ""
        · rw [if_pos hde]
          exact List.mem_cons_of_mem _ (ih ds' n hn)
        · rw [if_neg hde]
          exact List.mem_cons_of_mem _ (List.mem_cons_of_mem _ (ih ds' n hn))

lemma mkSegments_cons (n : StoryNode) (ns : List StoryNode) (ds : List String) :
    ∃ tail, mkSegments (n :: ns) ds = nodeSegment n :: tail := by
  cases ds with
  | nil => exact ⟨mkSegments ns [], rfl⟩
  | cons d ds' =>
    rw [mkSegments]
    by_cases hde : d = ""
    · rw [if_pos hde]
      exact ⟨mkSegments ns ds', rfl⟩
    · rw [if_neg hde]
      exact ⟨("[Decision: " ++ d ++ "]") :: mkSegments ns ds', rfl⟩

lemma SubSeg_trans {a b c : List Char} (h1 : SubSeg a b) (h2 : SubSeg b c) : SubSeg a c := by
  rcases h1 with ⟨u, v, rfl⟩
  rcases h2 with ⟨x, y, rfl⟩
  exact ⟨x ++ u, v ++ y, by simp⟩

lemma subSeg_joinSegs : ∀ (ss : List String) (s : String), s ∈ ss →
    SubSeg s.data (joinSegs ss).data := by
  intro ss
  induction ss with
  | nil =>
    intro s hs
    cases hs
  | cons s0 rest ih =>
    intro s hs
    simp only [List.mem_cons] at hs
    rcases hs with rfl | hs
    · cases rest with
      | nil => exact ⟨[], [], by simp [joinSegs]⟩
      | cons s2 rest2 =>
        rw [joinSegs_cons₂_data]
        exact ⟨[], '\n' :: '\n' :: (joinSegs (s2 :: rest2)).data, by simp⟩
    · cases rest with
      | nil => cases hs
      | cons s2 rest2 =>
        have hsub := ih s hs
        rw [joinSegs_cons₂_data]
        exact SubSeg_trans hsub ⟨s0.data ++ ['\n', '\n'], [], by simp⟩

/-- C6 counterexample: a node with empty content makes its segment end in
a newline, so joining with the blank-line separator produces three
consecutive newlines; the claim that the output never contains a run of 3
or more newlines fails. -/
theorem concatenatePath_tripleNewline_cex :
    concatenatePath ⟨["a", "b"], [⟨"a", "A", "", none⟩, ⟨"b", "B", "x", none⟩], []⟩ =
      "# A\n\n\n# B\nx" ∧
    noTriple3 (concatenatePath
      ⟨["a", "b"], [⟨"a", "A", "", none⟩, ⟨"b", "B", "x", none⟩], []⟩).data = false := by
  exact ⟨by decide, by decide⟩

/-- C6 (amended): provided every node's title and content are free of
newline characters, every content is non-empty and does not end in
whitespace, and every decision string is newline-free, the output of
`concatenatePath` is exactly the segments joined with a double newline
(trimming is the identity here), reproduces every node's title and
content verbatim as contiguous substrings, and contains no run of 3 or
more consecutive newlines.  Without these provisos the newline bound
fails (see the counterexample with an empty content). -/
theorem concatenatePath_clean (p : StoryPath)
    (hne : p.nodes ≠ [])
    (hgood : ∀ n ∈ p.nodes, (∀ c ∈ n.title.data, c ≠ '\n') ∧ n.content.data ≠ [] ∧
      (∀ c ∈ n.content.data, c ≠ '\n') ∧ isWs (n.content.data.getLastD ' ') = false)
    (hdec : ∀ d ∈ p.decisions, ∀ c ∈ d.data, c ≠ '\n') :
    concatenatePath p = joinSegs (mkSegments p.nodes p.decisions) ∧
    (∀ n ∈ p.nodes, SubSeg n.title.data (concatenatePath p).data ∧
      SubSeg n.content.data (concatenatePath p).data) ∧
    noTriple3 (concatenatePath p).data = true := by
  obtain ⟨n₀, ns', hns⟩ : ∃ a l, p.nodes = a :: l := by
    cases hpn : p.nodes with
    | nil => exact absurd hpn hne
    | cons a l => exact ⟨a, l, rfl⟩
  have hallgood : ∀ s ∈ mkSegments p.nodes p.decisions, goodSeg s := by
    intro s hs
    rcases mkSegments_shape p.nodes p.decisions s hs with ⟨n, hn, rfl⟩ | ⟨d, hdm, rfl⟩
    · rcases hgood n hn with ⟨a, b, c, d⟩
      exact nodeSegment_good a b c d
    · exact decSegment_good (hdec d hdm)
  obtain ⟨tail, htail⟩ := mkSegments_cons n₀ ns' p.decisions
  rw [hns] at hallgood ⊢
  rw [htail] at hallgood ⊢
  rcases joinSegs_good tail (nodeSegment n₀) hallgood with ⟨jne, jh, jl, jt⟩
  have htrim : concatenatePath p = joinSegs (nodeSegment n₀ :: tail) := by
    unfold concatenatePath
    rw [hns, htail]
    exact jsTrim_eq_self jne jh jl
  refine ⟨htrim, ?_, ?_⟩
  · intro n hn
    have hn' : n ∈ p.nodes := by rw [hns]; exact hn
    have hmem : nodeSegment n ∈ nodeSegment n₀ :: tail := by
      rw [← htail, ← hns]
      exact nodeSegment_mem_mkSegments p.nodes p.decisions n hn'
    have hsub := subSeg_joinSegs _ _ hmem
    rw [htrim]
    constructor
    · refine SubSeg_trans ?_ hsub
      rw [nodeSegment_data]
      exact ⟨['#', ' '], '\n' :: n.content.data, by simp⟩
    · refine SubSeg_trans ?_ hsub
      rw [nodeSegment_data]
      exact ⟨'#' :: ' ' :: n.title.data ++ ['\n'], [], by simp⟩
  · rw [htrim]
    exact jt

theorem concatenatePath_clean_witness :
    (([⟨"a", "A", "ca", none⟩, ⟨"b", "B", "cb", some "Go"⟩] : List StoryNode) ≠ []) ∧
    concatenatePath ⟨["a", "b"],
        [⟨"a", "A", "ca", none⟩, ⟨"b", "B", "cb", some "Go"⟩], ["Go"]⟩ =
      joinSegs (mkSegments [⟨"a", "A", "ca", none⟩, ⟨"b", "B", "cb", some "Go"⟩] ["Go"]) := by
  refine ⟨by decide, ?_⟩
  exact (concatenatePath_clean
    ⟨["a", "b"], [⟨"a", "A", "ca", none⟩, ⟨"b", "B", "cb", some "Go"⟩], ["Go"]⟩
    (by decide) (by decide) (by decide)).1

lemma dStep_nil (n : StoryNode) (ds : List String) : dStep n [] ds = ds := by
  unfold dStep
  cases n.decisionText with
  | none => rfl
  | some s => simp

lemma dfs_diamond (nr nb nc nd : StoryNode) (r b c d : String)
    (hrb : r ≠ b) (hrc : r ≠ c) (hrd : r ≠ d) (hbc : b ≠ c) (hbd : b ≠ d) (hcd : c ≠ d)
    (f : Nat) :
    dfs [(r, nr), (b, nb), (c, nc), (d, nd)] [(r, [b, c]), (b, [d]), (c, [d]), (d, [])]
      (f + 3) r [] [] [] [] =
    .ok [⟨[r, b, d], [nr, nb, nd], dStep nd [r, b] (dStep nb [r] [])⟩,
         ⟨[r, c, d], [nr, nc, nd], dStep nd [r, c] (dStep nc [r] [])⟩] := by
  have f1 : (r == b) = false := by simp [hrb]
  have f2 : (b == r) = false := by simp [Ne.symm hrb]
  have f3 : (r == c) = false := by simp [hrc]
  have f4 : (c == r) = false := by simp [Ne.symm hrc]
  have f5 : (r == d) = false := by simp [hrd]
  have f6 : (d == r) = false := by simp [Ne.symm hrd]
  have f7 : (b == c) = false := by simp [hbc]
  have f8 : (c == b) = false := by simp [Ne.symm hbc]
  have f9 : (b == d) = false := by simp [hbd]
  have f10 : (d == b) = false := by simp [Ne.symm hbd]
  have f11 : (c == d) = false := by simp [hcd]
  have f12 : (d == c) = false := by simp [Ne.symm hcd]
  have hdb : dfs [(r, nr), (b, nb), (c, nc), (d, nd)]
      [(r, [b, c]), (b, [d]), (c, [d]), (d, [])] (f + 1) d [r, b] [nr, nb]
      (dStep nb [r] []) [b, r] =
      .ok [⟨[r, b, d], [nr, nb, nd], dStep nd [r, b] (dStep nb [r] [])⟩] := by
    rw [dfs_succ]
    simp [nmGet, childrenOf, structFind, List.find?, f5, f6, f9, f10, f11, f12,
      hrb, hrc, hrd, hbc, hbd, hcd, Ne.symm hrb, Ne.symm hrc, Ne.symm hrd,
      Ne.symm hbc, Ne.symm hbd, Ne.symm hcd]
  have hdc : dfs [(r, nr), (b, nb), (c, nc), (d, nd)]
      [(r, [b, c]), (b, [d]), (c, [d]), (d, [])] (f + 1) d [r, c] [nr, nc]
      (dStep nc [r] []) [c, r] =
      .ok [⟨[r, c, d], [nr, nc, nd], dStep nd [r, c] (dStep nc [r] [])⟩] := by
    rw [dfs_succ]
    simp [nmGet, childrenOf, structFind, List.find?, f5, f6, f9, f10, f11, f12,
      hrb, hrc, hrd, hbc, hbd, hcd, Ne.symm hrb, Ne.symm hrc, Ne.symm hrd,
      Ne.symm hbc, Ne.symm hbd, Ne.symm hcd]
  have hb : dfs [(r, nr), (b, nb), (c, nc), (d, nd)]
      [(r, [b, c]), (b, [d]), (c, [d]), (d, [])] (f + 2) b [r] [nr] [] [r] =
      .ok [⟨[r, b, d], [nr, nb, nd], dStep nd [r, b] (dStep nb [r] [])⟩] := by
    rw [show f + 2 = (f + 1) + 1 from rfl, dfs_succ]
    simp only [nmGet, childrenOf, structFind, List.find?, f1, f2, f9, List.contains_cons]
    simp [f2, f1, f9, f10, List.find?, collectResults, hdb,
      hrb, hrc, hrd, hbc, hbd, hcd, Ne.symm hrb, Ne.symm hrc, Ne.symm hrd,
      Ne.symm hbc, Ne.symm hbd, Ne.symm hcd]
  have hc : dfs [(r, nr), (b, nb), (c, nc), (d, nd)]
      [(r, [b, c]), (b, [d]), (c, [d]), (d, [])] (f + 2) c [r] [nr] [] [r] =
      .ok [⟨[r, c, d], [nr, nc, nd], dStep nd [r, c] (dStep nc [r] [])⟩] := by
    rw [show f + 2 = (f + 1) + 1 from rfl, dfs_succ]
    simp [f3, f4, f7, f8, f11, f12, nmGet, childrenOf, structFind, List.find?,
      collectResults, hdc,
      hrb, hrc, hrd, hbc, hbd, hcd, Ne.symm hrb, Ne.symm hrc, Ne.symm hrd,
      Ne.symm hbc, Ne.symm hbd, Ne.symm hcd]
  rw [show f + 3 = (f + 2) + 1 from rfl, dfs_succ]
  simp [nmGet, childrenOf, structFind, List.find?, dStep_nil, collectResults, hb, hc,
    hrb, hrc, hrd, hbc, hbd, hcd, Ne.symm hrb, Ne.symm hrc, Ne.symm hrd,
    Ne.symm hbc, Ne.symm hbd, Ne.symm hcd]

/-- C3: for every diamond-shaped convergent acyclic input — a root whose
two distinct children both lead to a shared leaf — `traverseTree`
succeeds (no `CircularReference`), returning exactly 2 paths in the order
the children appear in the structure (left branch first), each containing
the shared node exactly once. -/
theorem traverseTree_diamond (r b c d : String) (nr nb nc nd : StoryNode)
    (hrb : r ≠ b) (hrc : r ≠ c) (hrd : r ≠ d) (hbc : b ≠ c) (hbd : b ≠ d) (hcd : c ≠ d) :
    ∃ out, traverseTree [(r, nr), (b, nb), (c, nc), (d, nd)]
        [(r, [b, c]), (b, [d]), (c, [d]), (d, [])] r = .ok out ∧
      out.map StoryPath.nodeIds = [[r, b, d], [r, c, d]] ∧
      (∀ p ∈ out, p.nodeIds.count d = 1) := by
  have hroot : ¬ ((nmGet [(r, nr), (b, nb), (c, nc), (d, nd)] r).isNone = true) := by
    simp [nmGet, List.find?]
  unfold traverseTree
  rw [if_neg hroot]
  have hfuel : pathFuel [(r, [b, c]), (b, [d]), (c, [d]), (d, [])] r = 3 + 3 := rfl
  rw [hfuel, dfs_diamond nr nb nc nd r b c d hrb hrc hrd hbc hbd hcd 3]
  refine ⟨_, rfl, by simp, ?_⟩
  intro p hp
  simp only [List.mem_cons, List.not_mem_nil, or_false] at hp
  rcases hp with rfl | rfl
  · simp [List.count_cons, Ne.symm hrd, Ne.symm hbd]
  · simp [List.count_cons, Ne.symm hrd, Ne.symm hcd]

theorem traverseTree_diamond_witness :
    ("r" : String) ≠ "b" ∧
    ∃ out, traverseTree
        [("r", ⟨"r", "R", "x", none⟩), ("b", ⟨"b", "B", "x", some "left"⟩),
          ("c", ⟨"c", "C", "x", some "right"⟩), ("d", ⟨"d", "D", "x", some "end"⟩)]
        [("r", ["b", "c"]), ("b", ["d"]), ("c", ["d"]), ("d", [])] "r" = .ok out ∧
      out.map StoryPath.nodeIds = [["r", "b", "d"], ["r", "c", "d"]] ∧
      (∀ p ∈ out, p.nodeIds.count "d" = 1) :=
  ⟨by decide,
    traverseTree_diamond "r" "b" "c" "d"
      ⟨"r", "R", "x", none⟩ ⟨"b", "B", "x", some "left"⟩
      ⟨"c", "C", "x", some "right"⟩ ⟨"d", "D", "x", some "end"⟩
      (by decide) (by decide) (by decide) (by decide) (by decide) (by decide)⟩

lemma collect_mem_ok {l : List (Except TError (List StoryPath))} {out : List StoryPath}
    (h : collectResults l = .ok out) {r : Except TError (List StoryPath)} (hr : r ∈ l) :
    ∃ o, r = .ok o ∧ ∀ p ∈ o, p ∈ out := by
  induction l generalizing out with
  | nil => cases hr
  | cons r0 rest ih =>
    cases r0 with
    | error e => simp [collectResults] at h
    | ok o1 =>
      simp only [collectResults] at h
      cases hrest : collectResults rest with
      | error e => rw [hrest] at h; cases h
      | ok acc =>
        rw [hrest] at h
        simp only [Except.ok.injEq] at h
        subst h
        simp only [List.mem_cons] at hr
        rcases hr with rfl | hr
        · exact ⟨o1, rfl, fun p hp => List.mem_append.mpr (.inl hp)⟩
        · rcases ih hrest hr with ⟨o, rfl, hsub⟩
          exact ⟨o, rfl, fun p hp => List.mem_append.mpr (.inr (hsub p hp))⟩

lemma collect_all_ok {l : List (Except TError (List StoryPath))}
    (h : ∀ r ∈ l, ∃ o, r = .ok o) : ∃ out, collectResults l = .ok out := by
  induction l with
  | nil => exact ⟨[], rfl⟩
  | cons r0 rest ih =>
    rcases h r0 (by simp) with ⟨o, rfl⟩
    rcases ih (fun r hr => h r (List.mem_cons_of_mem _ hr)) with ⟨acc, hacc⟩
    refine ⟨o ++ acc, ?_⟩
    simp only [collectResults]
    rw [hacc]

lemma collect_error {l : List (Except TError (List StoryPath))} {e : TError}
    (h : collectResults l = .error e) : .error e ∈ l := by
  induction l with
  | nil => cases h
  | cons r0 rest ih =>
    cases r0 with
    | error e0 =>
      simp only [collectResults, Except.error.injEq] at h
      rw [h]
      exact List.mem_cons_self _ _
    | ok o1 =>
      simp only [collectResults] at h
      cases hrest : collectResults rest with
      | error e1 =>
        rw [hrest] at h
        simp only [Except.error.injEq] at h
        subst h
        exact List.mem_cons_of_mem _ (ih hrest)
      | ok acc => rw [hrest] at h; cases h

lemma reach_head {struct : TreeStructure} {a b c : String}
    (hab : b ∈ childrenOf struct a) (hbc : Reach struct b c) : Reach struct a c := by
  induction hbc with
  | refl => exact .tail (.refl a) hab
  | tail _ hstep ih => exact .tail ih hstep

lemma reach_cases {struct : TreeStructure} {a b : String} (h : Reach struct a b) :
    a = b ∨ ∃ c ∈ childrenOf struct a, Reach struct c b := by
  induction h with
  | refl => exact .inl rfl
  | tail hr hstep ih =>
    rcases ih with rfl | ⟨c, hc, hcb⟩
    · exact .inr ⟨_, hstep, .refl _⟩
    · exact .inr ⟨c, hc, .tail hcb hstep⟩

lemma chain_reach {struct : TreeStructure} :
    ∀ (t : List String) (a : String),
      List.Chain' (fun x y => y ∈ childrenOf struct x) (a :: t) →
      ∃ b, (a :: t).getLast? = some b ∧ Reach struct a b := by
  intro t
  induction t with
  | nil =>
    intro a _
    exact ⟨a, rfl, .refl a⟩
  | cons c t' ih =>
    intro a hch
    rw [List.chain'_cons] at hch
    rcases ih c hch.2 with ⟨b, hb, hreach⟩
    exact ⟨b, by rw [List.getLast?_cons_cons]; exact hb, reach_head hch.1 hreach⟩

lemma reach_walk {struct : TreeStructure} {a b : String} (h : Reach struct a b) :
    ∃ w : List String, w.head? = some a ∧ w.getLast? = some b ∧
      List.Chain' (fun x y => y ∈ childrenOf struct x) w := by
  induction h with
  | refl => exact ⟨[_], rfl, rfl, List.chain'_singleton _⟩
  | tail hr hstep ih =>
    rename_i bmid cend
    rcases ih with ⟨w, hh, hl, hch⟩
    refine ⟨w ++ [cend], ?_, ?_, ?_⟩
    · cases w with
      | nil => cases hh
      | cons x t => exact hh
    · rw [List.getLast?_append_of_ne_nil _ (by simp)]
      rfl
    · rw [List.chain'_append]
      refine ⟨hch, List.chain'_singleton _, ?_⟩
      intro x hx y hy
      simp only [List.head?_cons, Option.mem_def, Option.some.injEq] at hy
      rw [hl] at hx
      simp only [Option.mem_def, Option.some.injEq] at hx
      subst hx
      subst hy
      exact hstep

lemma children_sub_allChildIds {struct : TreeStructure} {a x : String}
    (h : x ∈ childrenOf struct a) : x ∈ allChildIds struct := by
  unfold childrenOf structFind at h
  cases hf : List.find? (fun p => p.1 == a) struct with
  | none => rw [hf] at h; cases h
  | some pr =>
    rw [hf] at h
    simp only [Option.map_some', Option.getD_some] at h
    have hmem : pr ∈ struct := List.mem_of_find?_eq_some hf
    unfold allChildIds
    rw [List.mem_flatten]
    exact ⟨pr.2, List.mem_map.mpr ⟨pr, hmem, rfl⟩, h⟩

lemma dfs_ok_cases {nodes : NodeMap} {struct : TreeStructure} {fuel : Nat} {cur : String}
    {path : List String} {ns : List StoryNode} {ds vis : List String} {out : List StoryPath}
    (h : dfs nodes struct (fuel + 1) cur path ns ds vis = .ok out) :
    ∃ node, vis.contains cur = false ∧ nmGet nodes cur = some node ∧
      ((childrenOf struct cur = [] ∧
          out = [⟨path ++ [cur], ns ++ [node], dStep node path ds⟩]) ∨
        (childrenOf struct cur ≠ [] ∧
          collectResults ((childrenOf struct cur).map fun c =>
            dfs nodes struct fuel c (path ++ [cur]) (ns ++ [node])
              (dStep node path ds) (cur :: vis)) = .ok out)) := by
  rw [dfs_succ] at h
  by_cases hvis : vis.contains cur
  · rw [if_pos hvis] at h
    cases h
  · rw [if_neg hvis] at h
    cases hn : nmGet nodes cur with
    | none => rw [hn] at h; cases h
    | some node =>
      rw [hn] at h
      dsimp only at h
      refine ⟨node, by simpa using hvis, rfl, ?_⟩
      by_cases hch : (childrenOf struct cur).isEmpty
      · rw [if_pos hch] at h
        simp only [Except.ok.injEq] at h
        exact .inl ⟨List.isEmpty_iff.mp hch, h.symm⟩
      · rw [if_neg hch] at h
        exact .inr ⟨fun hcon => hch (by rw [hcon]; rfl), h⟩

lemma dfs_error_cases {nodes : NodeMap} {struct : TreeStructure} {fuel : Nat} {cur : String}
    {path : List String} {ns : List StoryNode} {ds vis : List String} {e : TError}
    (h : dfs nodes struct (fuel + 1) cur path ns ds vis = .error e) :
    (vis.contains cur = true ∧ e = .circular (path.drop (idxOfStr path cur) ++ [cur])) ∨
    (vis.contains cur = false ∧ nmGet nodes cur = none ∧ e = .notFound cur) ∨
    (∃ node, vis.contains cur = false ∧ nmGet nodes cur = some node ∧
      childrenOf struct cur ≠ [] ∧
      collectResults ((childrenOf struct cur).map fun c =>
        dfs nodes struct fuel c (path ++ [cur]) (ns ++ [node])
          (dStep node path ds) (cur :: vis)) = .error e) := by
  rw [dfs_succ] at h
  by_cases hvis : vis.contains cur
  · rw [if_pos hvis] at h
    simp only [Except.error.injEq] at h
    exact .inl ⟨hvis, h.symm⟩
  · rw [if_neg hvis] at h
    cases hn : nmGet nodes cur with
    | none =>
      rw [hn] at h
      simp only [Except.error.injEq] at h
      exact .inr (.inl ⟨by simpa using hvis, rfl, h.symm⟩)
    | some node =>
      rw [hn] at h
      dsimp only at h
      by_cases hch : (childrenOf struct cur).isEmpty
      · rw [if_pos hch] at h
        cases h
      · rw [if_neg hch] at h
        exact .inr (.inr ⟨node, by simpa using hvis, rfl,
          fun hcon => hch (by rw [hcon]; rfl), h⟩)

lemma dfs_ok_ne_nil (nodes : NodeMap) (struct : TreeStructure) :
    ∀ (fuel : Nat) (cur : String) (path : List String) (ns : List StoryNode)
      (ds vis : List String) (out : List StoryPath),
      dfs nodes struct fuel cur path ns ds vis = .ok out → out ≠ [] := by
  intro fuel
  induction fuel with
  | zero =>
    intro cur path ns ds vis out h
    rw [dfs_zero] at h
    cases h
  | succ fuel ih =>
    intro cur path ns ds vis out h
    rcases dfs_ok_cases h with ⟨node, hvis, hn, ⟨hch, rfl⟩ | ⟨hch, hcol⟩⟩
    · simp
    · cases hcc : childrenOf struct cur with
      | nil => exact absurd hcc hch
      | cons ch rest =>
        have hmem : dfs nodes struct fuel ch (path ++ [cur]) (ns ++ [node])
            (dStep node path ds) (cur :: vis) ∈
            (childrenOf struct cur).map (fun c =>
              dfs nodes struct fuel c (path ++ [cur]) (ns ++ [node])
                (dStep node path ds) (cur :: vis)) := by
          rw [hcc]
          exact List.mem_map_of_mem _ (by simp)
        rcases collect_mem_ok hcol hmem with ⟨o, hok, hsub⟩
        have hone := ih ch _ _ _ _ o hok
        cases ho : o with
        | nil => exact absurd ho hone
        | cons p o' =>
          intro hcon
          have : p ∈ out := hsub p (by rw [ho]; simp)
          rw [hcon] at this
          cases this

lemma chain_leaf_last {struct : TreeStructure} :
    ∀ (l : List String) (x : String),
      List.Chain' (fun u v => v ∈ childrenOf struct u) l → x ∈ l →
      childrenOf struct x = [] → l.getLast? = some x := by
  intro l
  induction l with
  | nil =>
    intro x _ hx _
    cases hx
  | cons a t ih =>
    intro x hch hx hleaf
    cases t with
    | nil =>
      simp only [List.mem_singleton] at hx
      subst hx
      rfl
    | cons b t' =>
      rw [List.chain'_cons] at hch
      simp only [List.mem_cons] at hx
      rcases hx with rfl | hx
      · rw [hleaf] at hch
        cases hch.1
      · rw [List.getLast?_cons_cons]
        exact ih x hch.2 (by simpa using hx) hleaf

lemma dfs_ok_shape (nodes : NodeMap) (struct : TreeStructure) :
    ∀ (fuel : Nat) (cur : String) (path : List String) (ns : List StoryNode)
      (ds vis : List String) (out : List StoryPath),
      dfs nodes struct fuel cur path ns ds vis = .ok out →
      ∀ p ∈ out, ∃ t, p.nodeIds = path ++ cur :: t ∧
        List.Chain' (fun u v => v ∈ childrenOf struct u) (cur :: t) ∧
        ∃ z, (cur :: t).getLast? = some z ∧ childrenOf struct z = [] := by
  intro fuel
  induction fuel with
  | zero =>
    intro cur path ns ds vis out h
    rw [dfs_zero] at h
    cases h
  | succ fuel ih =>
    intro cur path ns ds vis out h p hp
    rcases dfs_ok_cases h with ⟨node, hvis, hn, ⟨hch, rfl⟩ | ⟨hch, hcol⟩⟩
    · simp only [List.mem_singleton] at hp
      subst hp
      exact ⟨[], by simp, List.chain'_singleton cur, cur, rfl, hch⟩
    · rcases collect_mem hcol hp with ⟨o, hom, hpo⟩
      rcases List.mem_map.mp hom with ⟨c, hc, hfc⟩
      rcases ih c (path ++ [cur]) (ns ++ [node]) (dStep node path ds) (cur :: vis) o
          hfc p hpo with ⟨t, hnid, hchn, z, hz, hzleaf⟩
      refine ⟨c :: t, by rw [hnid]; simp, ?_, z, ?_, hzleaf⟩
      · rw [List.chain'_cons]
        exact ⟨hc, hchn⟩
      · rw [List.getLast?_cons_cons]
        exact hz

lemma dfs_ok_cover (nodes : NodeMap) (struct : TreeStructure) :
    ∀ (fuel : Nat) (cur : String) (path : List String) (ns : List StoryNode)
      (ds vis : List String) (out : List StoryPath),
      dfs nodes struct fuel cur path ns ds vis = .ok out →
      ∀ b, Reach struct cur b → ∃ p ∈ out, b ∈ p.nodeIds := by
  intro fuel
  induction fuel with
  | zero =>
    intro cur path ns ds vis out h
    rw [dfs_zero] at h
    cases h
  | succ fuel ih =>
    intro cur path ns ds vis out h b hreach
    rcases reach_cases hreach with rfl | ⟨c, hc, hcb⟩
    · -- b = cur: cur lies on every emitted path; out is non-empty
      cases hout : out with
      | nil => exact absurd hout (dfs_ok_ne_nil nodes struct _ _ _ _ _ _ _ h)
      | cons p rest =>
        rcases dfs_ok_shape nodes struct _ _ _ _ _ _ _ h p (by rw [hout]; simp)
          with ⟨t, hnid, _, _⟩
        refine ⟨p, by simp, ?_⟩
        rw [hnid]
        simp
    · rcases dfs_ok_cases h with ⟨node, hvis, hn, ⟨hch, rfl⟩ | ⟨hch, hcol⟩⟩
      · rw [hch] at hc
        cases hc
      · have hmem : dfs nodes struct fuel c (path ++ [cur]) (ns ++ [node])
            (dStep node path ds) (cur :: vis) ∈
            (childrenOf struct cur).map (fun x =>
              dfs nodes struct fuel x (path ++ [cur]) (ns ++ [node])
                (dStep node path ds) (cur :: vis)) :=
          List.mem_map_of_mem _ hc
        rcases collect_mem_ok hcol hmem with ⟨o, hok, hsub⟩
        rcases ih c (path ++ [cur]) (ns ++ [node]) (dStep node path ds) (cur :: vis) o
          hok b hcb with ⟨p, hpo, hbp⟩
        exact ⟨p, hsub p hpo, hbp⟩

lemma dfs_ok_nodup (nodes : NodeMap) (struct : TreeStructure) :
    ∀ (fuel : Nat) (cur : String) (path : List String) (ns : List StoryNode)
      (ds vis : List String) (out : List StoryPath),
      dfs nodes struct fuel cur path ns ds vis = .ok out →
      (∀ x, x ∈ vis ↔ x ∈ path) → path.Nodup →
      ∀ p ∈ out, p.nodeIds.Nodup := by
  intro fuel
  induction fuel with
  | zero =>
    intro cur path ns ds vis out h
    rw [dfs_zero] at h
    cases h
  | succ fuel ih =>
    intro cur path ns ds vis out h hiv hnd p hp
    rcases dfs_ok_cases h with ⟨node, hvis, hn, hrest⟩
    have hcur : cur ∉ path := by
      intro hcon
      have : cur ∈ vis := (hiv cur).mpr hcon
      rw [← List.elem_iff] at this
      rw [List.contains, this] at hvis
      cases hvis
    have hnd' : (path ++ [cur]).Nodup := by
      rw [List.nodup_append]
      exact ⟨hnd, List.nodup_singleton cur, by
        intro x hx
        simp only [List.mem_singleton]
        intro hcon
        subst hcon
        exact hcur hx⟩
    rcases hrest with ⟨hch, rfl⟩ | ⟨hch, hcol⟩
    · simp only [List.mem_singleton] at hp
      subst hp
      exact hnd'
    · rcases collect_mem hcol hp with ⟨o, hom, hpo⟩
      rcases List.mem_map.mp hom with ⟨c, hc, hfc⟩
      refine ih c (path ++ [cur]) (ns ++ [node]) (dStep node path ds) (cur :: vis) o
        hfc ?_ hnd' p hpo
      intro x
      simp only [List.mem_cons, List.mem_append, List.mem_singleton]
      rw [hiv x]
      tauto

lemma dfs_ok_walk (nodes : NodeMap) (struct : TreeStructure) :
    ∀ (fuel : Nat) (cur : String) (path : List String) (ns : List StoryNode)
      (ds vis : List String) (out : List StoryPath),
      dfs nodes struct fuel cur path ns ds vis = .ok out →
      ∀ t, List.Chain' (fun u v => v ∈ childrenOf struct u) (cur :: t) →
        ∃ p ∈ out, ∃ rest, p.nodeIds = path ++ cur :: t ++ rest := by
  intro fuel
  induction fuel with
  | zero =>
    intro cur path ns ds vis out h
    rw [dfs_zero] at h
    cases h
  | succ fuel ih =>
    intro cur path ns ds vis out h t hch
    cases t with
    | nil =>
      cases hout : out with
      | nil => exact absurd hout (dfs_ok_ne_nil nodes struct _ _ _ _ _ _ _ h)
      | cons p rest =>
        rcases dfs_ok_shape nodes struct _ _ _ _ _ _ _ h p (by rw [hout]; simp)
          with ⟨t', hnid, _, _⟩
        exact ⟨p, by simp, t', by rw [hnid]; simp⟩
    | cons c t' =>
      rw [List.chain'_cons] at hch
      rcases dfs_ok_cases h with ⟨node, hvis, hn, ⟨hempty, rfl⟩ | ⟨hne, hcol⟩⟩
      · rw [hempty] at hch
        cases hch.1
      · have hmem : dfs nodes struct fuel c (path ++ [cur]) (ns ++ [node])
            (dStep node path ds) (cur :: vis) ∈
            (childrenOf struct cur).map (fun x =>
              dfs nodes struct fuel x (path ++ [cur]) (ns ++ [node])
                (dStep node path ds) (cur :: vis)) :=
          List.mem_map_of_mem _ hch.1
        rcases collect_mem_ok hcol hmem with ⟨o, hok, hsub⟩
        rcases ih c (path ++ [cur]) (ns ++ [node]) (dStep node path ds) (cur :: vis) o
          hok t' hch.2 with ⟨p, hpo, rest, hnid⟩
        exact ⟨p, hsub p hpo, rest, by rw [hnid]; simp⟩

lemma drop_idxOfStr {cur : String} :
    ∀ {path : List String}, cur ∈ path →
      ∃ rest, path.drop (idxOfStr path cur) = cur :: rest := by
  intro path
  induction path with
  | nil => intro h; cases h
  | cons x xs ih =>
    intro h
    by_cases hx : x = cur
    · subst hx
      rw [idxOfStr, if_pos rfl]
      exact ⟨xs, rfl⟩
    · rw [idxOfStr, if_neg hx, List.drop_succ_cons]
      refine ih ?_
      simp only [List.mem_cons] at h
      rcases h with rfl | h
      · exact absurd rfl hx
      · exact h

lemma idxOfStr_le_length : ∀ (path : List String) (cur : String),
    idxOfStr path cur ≤ path.length := by
  intro path cur
  induction path with
  | nil => exact Nat.le_refl 0
  | cons x xs ih =>
    rw [idxOfStr]
    by_cases hx : x = cur
    · rw [if_pos hx]
      exact Nat.zero_le _
    · rw [if_neg hx, List.length_cons]
      exact Nat.succ_le_succ ih

lemma dfs_circular_shape (nodes : NodeMap) (struct : TreeStructure) :
    ∀ (fuel : Nat) (cur : String) (path : List String) (ns : List StoryNode)
      (ds vis : List String) (cyc : List String),
      dfs nodes struct fuel cur path ns ds vis = .error (.circular cyc) →
      (∀ x, x ∈ vis ↔ x ∈ path) →
      List.Chain' (fun u v => v ∈ childrenOf struct u) (path ++ [cur]) →
      2 ≤ cyc.length ∧ cyc.head? = cyc.getLast? ∧ cyc.head?.isSome ∧
        List.Chain' (fun u v => v ∈ childrenOf struct u) cyc := by
  intro fuel
  induction fuel with
  | zero =>
    intro cur path ns ds vis cyc h
    rw [dfs_zero] at h
    cases h
  | succ fuel ih =>
    intro cur path ns ds vis cyc h hiv hch
    rcases dfs_error_cases h with ⟨hvis, hcyc⟩ | ⟨_, _, hne⟩ | ⟨node, hvis, hn, hcne, hcol⟩
    · -- the cycle is detected at this node
      have hcur : cur ∈ path := by
        rw [← hiv cur, ← List.elem_iff]
        exact hvis
      rcases drop_idxOfStr hcur with ⟨rest, hdrop⟩
      simp only [TError.circular.injEq] at hcyc
      subst hcyc
      rw [hdrop]
      refine ⟨by simp, ?_, by simp, ?_⟩
      · rw [List.getLast?_append_of_ne_nil _ (by simp)]
        rfl
      · have hdrop2 : (path ++ [cur]).drop (idxOfStr path cur) =
            path.drop (idxOfStr path cur) ++ [cur] :=
          List.drop_append_of_le_length (idxOfStr_le_length path cur)
        rw [← hdrop, ← hdrop2]
        exact hch.drop _
    · cases hne
    · rcases collect_error hcol with hmem
      rcases List.mem_map.mp hmem with ⟨c, hc, hfc⟩
      refine ih c (path ++ [cur]) (ns ++ [node]) (dStep node path ds) (cur :: vis) cyc
        hfc ?_ ?_
      · intro x
        simp only [List.mem_cons, List.mem_append, List.mem_singleton]
        rw [hiv x]
        tauto
      · rw [List.chain'_append]
        refine ⟨hch, List.chain'_singleton c, ?_⟩
        intro x hx y hy
        rw [List.getLast?_append_of_ne_nil _ (by simp)] at hx
        simp only [List.getLast?_singleton, Option.mem_def, Option.some.injEq] at hx
        simp only [List.head?_cons, Option.mem_def, Option.some.injEq] at hy
        subst hx
        subst hy
        exact hc

lemma nodup_sub_card_le {vis U : List String} (hnd : vis.Nodup) (hsub : ∀ v ∈ vis, v ∈ U) :
    vis.length ≤ U.toFinset.card := by
  have h1 : vis.toFinset.card = vis.length := List.toFinset_card_of_nodup hnd
  have h2 : vis.toFinset ⊆ U.toFinset := by
    intro x hx
    rw [List.mem_toFinset] at hx ⊢
    exact hsub x hx
  rw [← h1]
  exact Finset.card_le_card h2

lemma dfs_ok_or_circular (nodes : NodeMap) (struct : TreeStructure)
    (U : List String) (hU : ∀ a x, x ∈ childrenOf struct a → x ∈ U)
    (hpres : ∀ c ∈ allChildIds struct, (nmGet nodes c).isSome = true) :
    ∀ (fuel : Nat) (cur : String) (path : List String) (ns : List StoryNode)
      (ds vis : List String),
      cur ∈ U → (nmGet nodes cur).isSome = true →
      (∀ v ∈ vis, v ∈ U) → vis.Nodup →
      U.toFinset.card + 1 ≤ fuel + vis.length →
      (∃ out, dfs nodes struct fuel cur path ns ds vis = .ok out) ∨
      (∃ cyc, dfs nodes struct fuel cur path ns ds vis = .error (.circular cyc)) := by
  intro fuel
  induction fuel with
  | zero =>
    intro cur path ns ds vis _ _ hvsub hvnd harith
    exact absurd (nodup_sub_card_le hvnd hvsub) (by omega)
  | succ fuel ih =>
    intro cur path ns ds vis hcur hnp hvsub hvnd harith
    by_cases hvis : vis.contains cur
    · exact .inr ⟨_, by rw [dfs_succ, if_pos hvis]⟩
    · cases hn : nmGet nodes cur with
      | none => rw [hn] at hnp; cases hnp
      | some node =>
        have hcurv : cur ∉ vis := by
          intro hcon
          rw [← List.elem_iff] at hcon
          exact hvis hcon
        by_cases hch : (childrenOf struct cur).isEmpty
        · exact .inl ⟨_, by rw [dfs_succ, if_neg hvis, hn]; dsimp only; rw [if_pos hch]⟩
        · have hchild : ∀ c ∈ childrenOf struct cur,
              (∃ o, dfs nodes struct fuel c (path ++ [cur]) (ns ++ [node])
                (dStep node path ds) (cur :: vis) = .ok o) ∨
              (∃ cyc, dfs nodes struct fuel c (path ++ [cur]) (ns ++ [node])
                (dStep node path ds) (cur :: vis) = .error (.circular cyc)) := by
            intro c hc
            refine ih c _ _ _ _ (hU cur c hc) (hpres c (children_sub_allChildIds hc)) ?_ ?_ ?_
            · intro v hv
              simp only [List.mem_cons] at hv
              rcases hv with rfl | hv
              · exact hcur
              · exact hvsub v hv
            · exact List.nodup_cons.mpr ⟨hcurv, hvnd⟩
            · simp only [List.length_cons]
              omega
          cases hres : collectResults ((childrenOf struct cur).map fun c =>
              dfs nodes struct fuel c (path ++ [cur]) (ns ++ [node])
                (dStep node path ds) (cur :: vis)) with
          | ok out =>
            refine .inl ⟨out, ?_⟩
            rw [dfs_succ, if_neg hvis, hn]
            dsimp only
            rw [if_neg hch]
            exact hres
          | error e =>
            have hmem := collect_error hres
            rcases List.mem_map.mp hmem with ⟨c, hc, hfc⟩
            rcases hchild c hc with ⟨o, hok⟩ | ⟨cyc, hcirc⟩
            · rw [hok] at hfc
              cases hfc
            · rw [hcirc] at hfc
              injection hfc with he
              refine .inr ⟨cyc, ?_⟩
              rw [dfs_succ, if_neg hvis, hn]
              dsimp only
              rw [if_neg hch, hres, ← he]

lemma acyclic_no_cycle_list {struct : TreeStructure} (hacy : Acyclic struct)
    {cyc : List String} (hlen : 2 ≤ cyc.length) (hhl : cyc.head? = cyc.getLast?)
    (hch : List.Chain' (fun u v => v ∈ childrenOf struct u) cyc) : False := by
  cases cyc with
  | nil => simp at hlen
  | cons x rest =>
    cases rest with
    | nil => simp at hlen
    | cons y rest' =>
      rw [List.chain'_cons] at hch
      rcases @chain_reach struct rest' y hch.2 with ⟨z, hz, hreach⟩
      have hxz : x = z := by
        rw [List.head?_cons, List.getLast?_cons_cons, hz] at hhl
        simpa using hhl
      exact hacy x y hch.1 (by rw [hxz]; exact hreach)

/-- C1 (amended): for every acyclic input whose referenced ids are all
present in the node mapping, `traverseTree` succeeds, the union of the
returned `nodeIds` sequences covers every node reachable from the root,
and the number of returned paths is at least the number of distinct
reachable leaves (equality fails for convergent inputs: a diamond has one
reachable leaf but two paths — see the counterexample). -/
theorem traverseTree_acyclic (nodes : NodeMap) (struct : TreeStructure) (rootId : String)
    (hacy : Acyclic struct) (hpres : allPresent nodes struct rootId = true) :
    ∃ out, traverseTree nodes struct rootId = .ok out ∧
      (∀ b, Reach struct rootId b → ∃ p ∈ out, b ∈ p.nodeIds) ∧
      (∀ L : List String, L.Nodup →
        (∀ x ∈ L, Reach struct rootId x ∧ childrenOf struct x = []) →
        L.length ≤ out.length) := by
  have hroot : (nmGet nodes rootId).isSome = true := by
    simp only [allPresent, Bool.and_eq_true] at hpres
    exact hpres.1
  have hkids : ∀ c ∈ allChildIds struct, (nmGet nodes c).isSome = true := by
    simp only [allPresent, Bool.and_eq_true, List.all_eq_true] at hpres
    intro c hc
    exact hpres.2 c hc
  have hU : ∀ a x, x ∈ childrenOf struct a → x ∈ rootId :: allChildIds struct :=
    fun a x hx => List.mem_cons_of_mem _ (children_sub_allChildIds hx)
  have harith : (rootId :: allChildIds struct).toFinset.card + 1 ≤
      pathFuel struct rootId + ([] : List String).length := by
    have hcl := List.toFinset_card_le (rootId :: allChildIds struct)
    rw [pathFuel]
    simp only [List.length_nil, Nat.add_zero]
    omega
  rcases dfs_ok_or_circular nodes struct (rootId :: allChildIds struct) hU hkids
      (pathFuel struct rootId) rootId [] [] [] []
      (List.mem_cons_self _ _) hroot (by intro v hv; cases hv) List.nodup_nil harith
    with ⟨out, hok⟩ | ⟨cyc, hcirc⟩
  · refine ⟨out, ?_, ?_, ?_⟩
    · unfold traverseTree
      rw [if_neg (by simp [Option.isNone_eq_false_iff, Option.isSome_iff_ne_none.mp hroot])]
      exact hok
    · exact dfs_ok_cover nodes struct _ _ _ _ _ _ _ hok
    · intro L hLnd hLprop
      have hsubM : ∀ x ∈ L, x ∈ out.map (fun p => p.nodeIds.getLastD "") := by
        intro x hx
        rcases hLprop x hx with ⟨hreach, hleaf⟩
        rcases dfs_ok_cover nodes struct _ _ _ _ _ _ _ hok x hreach with ⟨p, hpo, hxp⟩
        rcases dfs_ok_shape nodes struct _ _ _ _ _ _ _ hok p hpo with ⟨t, hnid, hchn, _⟩
        have hxin : x ∈ rootId :: t := by
          rw [hnid, List.nil_append] at hxp
          exact hxp
        have hlast := chain_leaf_last (rootId :: t) x hchn hxin hleaf
        refine List.mem_map.mpr ⟨p, hpo, ?_⟩
        rw [hnid, List.nil_append, List.getLastD_eq_getLast?, hlast]
        rfl
      have h1 : L.toFinset.card = L.length := List.toFinset_card_of_nodup hLnd
      have h2 : L.toFinset ⊆ (out.map (fun p => p.nodeIds.getLastD "")).toFinset := by
        intro x hx
        rw [List.mem_toFinset] at hx ⊢
        exact hsubM x hx
      have h3 := Finset.card_le_card h2
      have h4 := List.toFinset_card_le (out.map (fun p => p.nodeIds.getLastD ""))
      rw [List.length_map] at h4
      omega
  · exfalso
    have hshape := dfs_circular_shape nodes struct _ _ _ _ _ _ _ hcirc
      (by intro x; constructor
          · intro hx; cases hx
          · intro hx; cases hx)
      (by rw [List.nil_append]; exact List.chain'_singleton rootId)
    exact acyclic_no_cycle_list hacy hshape.1 hshape.2.1 hshape.2.2.2

lemma reach_mem {struct : TreeStructure} {a b : String} (h : Reach struct a b) :
    b = a ∨ b ∈ allChildIds struct := by
  induction h with
  | refl => exact .inl rfl
  | tail _ hstep _ => exact .inr (children_sub_allChildIds hstep)

/-- C1 counterexample: the diamond `r → {b, c}, b → d, c → d` is acyclic
with every referenced id present, `traverseTree` returns 2 paths, yet the
only reachable leaf is `d` — so "exactly as many paths as distinct
reachable leaves" fails (2 paths versus 1 leaf). -/
theorem traverseTree_leafCount_cex :
    (∃ out, traverseTree
        [("r", ⟨"r", "R", "x", none⟩), ("b", ⟨"b", "B", "x", none⟩),
          ("c", ⟨"c", "C", "x", none⟩), ("d", ⟨"d", "D", "x", none⟩)]
        [("r", ["b", "c"]), ("b", ["d"]), ("c", ["d"]), ("d", [])] "r" = .ok out ∧
      out.length = 2) ∧
    (Reach [("r", ["b", "c"]), ("b", ["d"]), ("c", ["d"]), ("d", [])] "r" "d" ∧
      childrenOf [("r", ["b", "c"]), ("b", ["d"]), ("c", ["d"]), ("d", [])] "d" = []) ∧
    (∀ x, Reach [("r", ["b", "c"]), ("b", ["d"]), ("c", ["d"]), ("d", [])] "r" x →
      childrenOf [("r", ["b", "c"]), ("b", ["d"]), ("c", ["d"]), ("d", [])] x = [] →
      x = "d") := by
  refine ⟨?_, ⟨?_, by decide⟩, ?_⟩
  · have h : traverseTree
        [("r", ⟨"r", "R", "x", none⟩), ("b", ⟨"b", "B", "x", none⟩),
          ("c", ⟨"c", "C", "x", none⟩), ("d", ⟨"d", "D", "x", none⟩)]
        [("r", ["b", "c"]), ("b", ["d"]), ("c", ["d"]), ("d", [])] "r" =
        .ok [⟨["r", "b", "d"],
              [⟨"r", "R", "x", none⟩, ⟨"b", "B", "x", none⟩, ⟨"d", "D", "x", none⟩], []⟩,
            ⟨["r", "c", "d"],
              [⟨"r", "R", "x", none⟩, ⟨"c", "C", "x", none⟩, ⟨"d", "D", "x", none⟩], []⟩] := by
      decide
    exact ⟨_, h, rfl⟩
  · exact @Reach.tail _ "r" "b" "d"
      (@Reach.tail _ "r" "r" "b" (.refl "r") (by decide)) (by decide)
  · intro x hreach hleaf
    rcases reach_mem hreach with rfl | hx
    · rw [show childrenOf [("r", ["b", "c"]), ("b", ["d"]), ("c", ["d"]), ("d", [])] "r" =
          ["b", "c"] from rfl] at hleaf
      cases hleaf
    · have hx' : x ∈ ["b", "c", "d", "d"] := hx
      fin_cases hx'
      · exact absurd hleaf (by decide)
      · exact absurd hleaf (by decide)
      · rfl
      · rfl

lemma rank_childrenOf {struct : TreeStructure} {rank : String → Nat}
    (h : ∀ p ∈ struct, ∀ b ∈ p.2, rank b < rank p.1) {a x : String}
    (hx : x ∈ childrenOf struct a) : rank x < rank a := by
  unfold childrenOf structFind at hx
  cases hf : List.find? (fun p => p.1 == a) struct with
  | none => rw [hf] at hx; cases hx
  | some pr =>
    rw [hf] at hx
    simp only [Option.map_some', Option.getD_some] at hx
    have hmem : pr ∈ struct := List.mem_of_find?_eq_some hf
    have hkey : pr.1 = a := by
      have := List.find?_some hf
      simpa using this
    rw [← hkey]
    exact h pr hmem x hx

lemma rank_reach {struct : TreeStructure} {rank : String → Nat}
    (h : ∀ p ∈ struct, ∀ b ∈ p.2, rank b < rank p.1) {a b : String}
    (hr : Reach struct a b) : rank b ≤ rank a := by
  induction hr with
  | refl => exact Nat.le_refl _
  | tail _ hstep ih => exact Nat.le_trans (Nat.le_of_lt (rank_childrenOf h hstep)) ih

lemma acyclic_of_rank {struct : TreeStructure} (rank : String → Nat)
    (h : ∀ p ∈ struct, ∀ b ∈ p.2, rank b < rank p.1) : Acyclic struct := by
  intro a b hb hreach
  have h1 : rank b < rank a := rank_childrenOf h hb
  have h2 : rank a ≤ rank b := rank_reach h hreach
  omega

theorem traverseTree_acyclic_witness :
    ∃ out, traverseTree [("a", ⟨"a", "A", "x", none⟩), ("b", ⟨"b", "B", "x", some "go"⟩)]
        [("a", ["b"]), ("b", [])] "a" = .ok out ∧
      (∀ b, Reach [("a", ["b"]), ("b", [])] "a" b → ∃ p ∈ out, b ∈ p.nodeIds) ∧
      (∀ L : List String, L.Nodup →
        (∀ x ∈ L, Reach [("a", ["b"]), ("b", [])] "a" x ∧
          childrenOf [("a", ["b"]), ("b", [])] x = []) →
        L.length ≤ out.length) :=
  traverseTree_acyclic [("a", ⟨"a", "A", "x", none⟩), ("b", ⟨"b", "B", "x", some "go"⟩)]
    [("a", ["b"]), ("b", [])] "a"
    (acyclic_of_rank (fun x => if x = "a" then 1 else 0) (by decide)) (by decide)

/-- C2 counterexample: the structure `r → {x, b}, b → b` has a cycle
reachable from `r`, but `x` is missing from the node map and is visited
first, so `traverseTree` raises `NotFound` — not `CircularReference`.
The claim needs the additional hypothesis that all referenced ids are
present. -/
theorem traverseTree_cycle_cex :
    HasCycleFrom [("r", ["x", "b"]), ("b", ["b"])] "r" ∧
    traverseTree [("r", ⟨"r", "R", "t", none⟩), ("b", ⟨"b", "B", "t", none⟩)]
      [("r", ["x", "b"]), ("b", ["b"])] "r" = .error (.notFound "x") := by
  constructor
  · refine ⟨"b", "b", ?_, by decide, .refl "b"⟩
    exact @Reach.tail _ "r" "r" "b" (.refl "r") (by decide)
  · decide

/-- C2 (amended): for every input whose referenced ids are all present in
the node mapping and whose structure contains a cycle reachable from the
root, `traverseTree` raises `CircularReference` and returns no paths at
all; the reported cycle is a non-trivial walk through the structure that
starts and ends at the repeated node (the current path from its first
occurrence back to itself).  Without the all-present hypothesis a missing
node visited first makes the call raise `NotFound` instead. -/
theorem traverseTree_cycle (nodes : NodeMap) (struct : TreeStructure) (rootId : String)
    (hpres : allPresent nodes struct rootId = true)
    (hcyc : HasCycleFrom struct rootId) :
    ∃ cyc, traverseTree nodes struct rootId = .error (.circular cyc) ∧
      2 ≤ cyc.length ∧ cyc.head? = cyc.getLast? ∧ cyc.head?.isSome = true ∧
      List.Chain' (fun u v => v ∈ childrenOf struct u) cyc := by
  have hroot : (nmGet nodes rootId).isSome = true := by
    simp only [allPresent, Bool.and_eq_true] at hpres
    exact hpres.1
  have hkids : ∀ c ∈ allChildIds struct, (nmGet nodes c).isSome = true := by
    simp only [allPresent, Bool.and_eq_true, List.all_eq_true] at hpres
    intro c hc
    exact hpres.2 c hc
  have hU : ∀ a x, x ∈ childrenOf struct a → x ∈ rootId :: allChildIds struct :=
    fun a x hx => List.mem_cons_of_mem _ (children_sub_allChildIds hx)
  have harith : (rootId :: allChildIds struct).toFinset.card + 1 ≤
      pathFuel struct rootId + ([] : List String).length := by
    have hcl := List.toFinset_card_le (rootId :: allChildIds struct)
    rw [pathFuel]
    simp only [List.length_nil, Nat.add_zero]
    omega
  rcases dfs_ok_or_circular nodes struct (rootId :: allChildIds struct) hU hkids
      (pathFuel struct rootId) rootId [] [] [] []
      (List.mem_cons_self _ _) hroot (by intro v hv; cases hv) List.nodup_nil harith
    with ⟨out, hok⟩ | ⟨cyc, hcirc⟩
  · exfalso
    rcases hcyc with ⟨a, b, hra, hb, hba⟩
    rcases reach_walk hra with ⟨w1, hh1, hl1, hc1⟩
    rcases reach_walk hba with ⟨w2, hh2, hl2, hc2⟩
    have hcW : List.Chain' (fun u v => v ∈ childrenOf struct u) (w1 ++ w2) := by
      rw [List.chain'_append]
      refine ⟨hc1, hc2, ?_⟩
      intro x hx y hy
      rw [hl1] at hx
      rw [hh2] at hy
      simp only [Option.mem_def, Option.some.injEq] at hx hy
      subst hx
      subst hy
      exact hb
    obtain ⟨t1, hw1⟩ : ∃ t1, w1 = rootId :: t1 := by
      cases hw : w1 with
      | nil => rw [hw] at hh1; cases hh1
      | cons z t1 =>
        rw [hw] at hh1
        simp only [List.head?_cons, Option.some.injEq] at hh1
        exact ⟨t1, by rw [hh1]⟩
    rw [hw1] at hcW
    have hcW' : List.Chain' (fun u v => v ∈ childrenOf struct u)
        (rootId :: (t1 ++ w2)) := by
      simpa using hcW
    rcases dfs_ok_walk nodes struct _ _ _ _ _ _ _ hok (t1 ++ w2) hcW'
      with ⟨p, hpo, rest, hnid⟩
    have hnd : p.nodeIds.Nodup :=
      dfs_ok_nodup nodes struct _ _ _ _ _ _ _ hok
        (by intro x; constructor
            · intro hx; cases hx
            · intro hx; cases hx)
        List.nodup_nil p hpo
    rw [hnid, List.nil_append] at hnd
    have hndW : (rootId :: (t1 ++ w2)).Nodup := by
      refine List.Nodup.sublist ?_ hnd
      exact List.Sublist.cons₂ rootId (List.sublist_append_left _ _)
    have ha1 : a ∈ rootId :: t1 := by
      rw [← hw1]
      exact List.mem_of_mem_getLast? hl1
    have ha2 : a ∈ w2 := List.mem_of_mem_getLast? hl2
    rw [List.nodup_cons] at hndW
    rcases hndW with ⟨hnotin, hndtw⟩
    rw [List.nodup_append] at hndtw
    simp only [List.mem_cons] at ha1
    rcases ha1 with rfl | ha1
    · exact hnotin (List.mem_append.mpr (.inr ha2))
    · exact hndtw.2.2 ha1 ha2
  · refine ⟨cyc, ?_, ?_⟩
    · unfold traverseTree
      rw [if_neg (by simp [Option.isNone_eq_false_iff, Option.isSome_iff_ne_none.mp hroot])]
      exact hcirc
    · have hshape := dfs_circular_shape nodes struct _ _ _ _ _ _ _ hcirc
        (by intro x; constructor
            · intro hx; cases hx
            · intro hx; cases hx)
        (by rw [List.nil_append]; exact List.chain'_singleton rootId)
      exact ⟨hshape.1, hshape.2.1, hshape.2.2.1, hshape.2.2.2⟩

theorem traverseTree_cycle_witness :
    allPresent [("a", ⟨"a", "A", "t", none⟩), ("b", ⟨"b", "B", "t", none⟩)]
      [("a", ["b"]), ("b", ["a"])] "a" = true ∧
    ∃ cyc, traverseTree [("a", ⟨"a", "A", "t", none⟩), ("b", ⟨"b", "B", "t", none⟩)]
        [("a", ["b"]), ("b", ["a"])] "a" = .error (.circular cyc) ∧
      2 ≤ cyc.length ∧ cyc.head? = cyc.getLast? ∧ cyc.head?.isSome = true ∧
      List.Chain' (fun u v =>
        v ∈ childrenOf [("a", ["b"]), ("b", ["a"])] u) cyc :=
  ⟨by decide,
    traverseTree_cycle [("a", ⟨"a", "A", "t", none⟩), ("b", ⟨"b", "B", "t", none⟩)]
      [("a", ["b"]), ("b", ["a"])] "a" (by decide)
      ⟨"a", "b", .refl "a", by decide,
        @Reach.tail _ "b" "b" "a" (.refl "b") (by decide)⟩⟩

/-- C10 (spec-modelled): `buildPathFromNodes` fails with `EmptyPath` on an
empty id list; whenever some id is absent from the node map it fails with
`NotFound` naming a missing id, *regardless of the structure argument*
(all ids are checked before building and before adjacency validation, not
lazily); with a structure supplied and all ids present, a non-adjacent
consecutive pair yields `InvalidConnection` naming an offending pair and
the valid alternatives; with the structure omitted (or every pair
adjacent) the same sequence is accepted, with decisions computed by the
`traverseTree` rule. -/
theorem buildPathFromNodes_spec (nodeIds : List String) (nodes : NodeMap) :
    (∀ st : Option TreeStructure, buildPathFromNodes [] nodes st = .error .emptyPath) ∧
    ((∃ id ∈ nodeIds, nmGet nodes id = none) → nodeIds ≠ [] →
      ∀ st : Option TreeStructure, ∃ m ∈ nodeIds, nmGet nodes m = none ∧
        buildPathFromNodes nodeIds nodes st = .error (.notFound m)) ∧
    (∀ st : TreeStructure, nodeIds ≠ [] → (∀ id ∈ nodeIds, (nmGet nodes id).isSome) →
      (∃ pr ∈ nodeIds.zip (nodeIds.drop 1), pr.2 ∉ childrenOf st pr.1) →
      ∃ a b, buildPathFromNodes nodeIds nodes (some st) =
          .error (.invalidConnection a b (childrenOf st a)) ∧
        (a, b) ∈ nodeIds.zip (nodeIds.drop 1) ∧ b ∉ childrenOf st a) ∧
    (nodeIds ≠ [] → (∀ id ∈ nodeIds, (nmGet nodes id).isSome) →
      buildPathFromNodes nodeIds nodes none = .ok ⟨nodeIds, nodeIds.filterMap (nmGet nodes),
        ((nodeIds.filterMap (nmGet nodes)).drop 1).filterMap decOf⟩) ∧
    (∀ st : TreeStructure, nodeIds ≠ [] → (∀ id ∈ nodeIds, (nmGet nodes id).isSome) →
      (∀ pr ∈ nodeIds.zip (nodeIds.drop 1), pr.2 ∈ childrenOf st pr.1) →
      buildPathFromNodes nodeIds nodes (some st) =
        .ok ⟨nodeIds, nodeIds.filterMap (nmGet nodes),
          ((nodeIds.filterMap (nmGet nodes)).drop 1).filterMap decOf⟩) := by
  refine ⟨fun st => rfl, ?_, ?_, ?_, ?_⟩
  · intro hmiss hne st
    have hsome : (nodeIds.find? (fun id => (nmGet nodes id).isNone)).isSome := by
      rw [List.find?_isSome]
      rcases hmiss with ⟨id, hid, hnone⟩
      exact ⟨id, hid, by rw [hnone]; rfl⟩
    rcases Option.isSome_iff_exists.mp hsome with ⟨m, hfind⟩
    refine ⟨m, List.mem_of_find?_eq_some hfind, ?_, ?_⟩
    · have := List.find?_some hfind
      simpa [Option.isNone_iff_eq_none] using this
    · unfold buildPathFromNodes
      rw [if_neg (by simp [hne]), hfind]
  · intro st hne hall hbad
    have hnone : nodeIds.find? (fun id => (nmGet nodes id).isNone) = none := by
      rw [List.find?_eq_none]
      intro x hx
      have := hall x hx
      simp [Option.isNone_iff_eq_none]
      exact Option.isSome_iff_ne_none.mp this
    have hsome : ((nodeIds.zip (nodeIds.drop 1)).find?
        (fun pr => !(childrenOf st pr.1).contains pr.2)).isSome := by
      rw [List.find?_isSome]
      rcases hbad with ⟨pr, hpr, hnc⟩
      refine ⟨pr, hpr, ?_⟩
      simp only [Bool.not_eq_true']
      rw [← Bool.not_eq_true]
      intro hcon
      exact hnc (List.elem_iff.mp hcon)
    rcases Option.isSome_iff_exists.mp hsome with ⟨pr, hfind⟩
    refine ⟨pr.1, pr.2, ?_, ?_, ?_⟩
    · unfold buildPathFromNodes
      rw [if_neg (by simp [hne]), hnone]
      dsimp only
      rw [hfind]
    · exact List.mem_of_find?_eq_some hfind
    · have := List.find?_some hfind
      simp only [Bool.not_eq_true'] at this
      intro hcon
      have h2 : (childrenOf st pr.1).contains pr.2 = true := List.elem_iff.mpr hcon
      rw [h2] at this
      cases this
  · intro hne hall
    have hnone : nodeIds.find? (fun id => (nmGet nodes id).isNone) = none := by
      rw [List.find?_eq_none]
      intro x hx
      simp [Option.isNone_iff_eq_none]
      exact Option.isSome_iff_ne_none.mp (hall x hx)
    unfold buildPathFromNodes
    rw [if_neg (by simp [hne]), hnone]
  · intro st hne hall hgood
    have hnone : nodeIds.find? (fun id => (nmGet nodes id).isNone) = none := by
      rw [List.find?_eq_none]
      intro x hx
      simp [Option.isNone_iff_eq_none]
      exact Option.isSome_iff_ne_none.mp (hall x hx)
    have hzip : ((nodeIds.zip (nodeIds.drop 1)).find?
        (fun pr => !(childrenOf st pr.1).contains pr.2)) = none := by
      rw [List.find?_eq_none]
      intro pr hpr
      simp only [Bool.not_eq_true', Bool.not_eq_false]
      exact List.elem_iff.mpr (hgood pr hpr)
    unfold buildPathFromNodes
    rw [if_neg (by simp [hne]), hnone]
    dsimp only
    rw [hzip]

theorem buildPathFromNodes_spec_witness :
    (["n1", "n3"] : List String) ≠ [] ∧
    (∃ a b, buildPathFromNodes ["n1", "n3"]
        [("n1", ⟨"n1", "Start", "Begin", none⟩), ("n3", ⟨"n3", "Other", "Diff", none⟩)]
        (some [("n1", ["n2"]), ("n3", [])]) =
        .error (.invalidConnection a b (childrenOf [("n1", ["n2"]), ("n3", [])] a)) ∧
      (a, b) ∈ (["n1", "n3"] : List String).zip (["n1", "n3"] : List String).tail ∧
      b ∉ childrenOf [("n1", ["n2"]), ("n3", [])] a) ∧
    buildPathFromNodes ["n1", "n3"]
      [("n1", ⟨"n1", "Start", "Begin", none⟩), ("n3", ⟨"n3", "Other", "Diff", none⟩)]
      none = .ok ⟨["n1", "n3"],
        [⟨"n1", "Start", "Begin", none⟩, ⟨"n3", "Other", "Diff", none⟩], []⟩ := by
  refine ⟨by decide, ?_, ?_⟩
  · exact (buildPathFromNodes_spec ["n1", "n3"]
      [("n1", ⟨"n1", "Start", "Begin", none⟩), ("n3", ⟨"n3", "Other", "Diff", none⟩)]).2.2.1
      [("n1", ["n2"]), ("n3", [])] (by decide) (by decide)
      ⟨("n1", "n3"), by decide, by decide⟩
  · exact (buildPathFromNodes_spec ["n1", "n3"]
      [("n1", ⟨"n1", "Start", "Begin", none⟩), ("n3", ⟨"n3", "Other", "Diff", none⟩)]).2.2.2.1
      (by decide) (by decide)

lemma bfsLoop_zero (nodes : NodeMap) (struct : TreeStructure) (queue vis : List String)
    (accN : List FlowNode) (accE : List FlowEdge) :
    bfsLoop nodes struct 0 queue vis accN accE = .error .fuelOut := rfl

lemma bfsLoop_succ_nil (nodes : NodeMap) (struct : TreeStructure) (fuel : Nat)
    (vis : List String) (accN : List FlowNode) (accE : List FlowEdge) :
    bfsLoop nodes struct (fuel + 1) [] vis accN accE = .ok ⟨accN, accE⟩ := rfl

lemma bfsLoop_succ_cons (nodes : NodeMap) (struct : TreeStructure) (fuel : Nat)
    (cur : String) (rest vis : List String) (accN : List FlowNode) (accE : List FlowEdge) :
    bfsLoop nodes struct (fuel + 1) (cur :: rest) vis accN accE =
      if vis.contains cur then
        bfsLoop nodes struct fuel rest vis accN accE
      else
        match nmGet nodes cur with
        | none => .error (.notFoundInNodes cur)
        | some storyNode =>
          match structFind struct cur with
          | none => .error (.notFoundInStruct cur)
          | some childIds =>
            match buildEdges nodes cur childIds with
            | .error e => .error e
            | .ok es =>
              bfsLoop nodes struct fuel (rest ++ childIds) (cur :: vis)
                (accN ++ [⟨cur, "custom", (0, 0), storyNode, childIds.isEmpty⟩])
                (accE ++ es) := rfl

lemma buildEdges_error {nodes : NodeMap} {cur : String} :
    ∀ {children : List String} {e : FError},
      buildEdges nodes cur children = .error e →
      ∃ c ∈ children, nmGet nodes c = none ∧ e = .notFoundInNodes c := by
  intro children
  induction children with
  | nil => intro e h; cases h
  | cons c cs ih =>
    intro e h
    rw [buildEdges] at h
    cases hn : nmGet nodes c with
    | none =>
      rw [hn] at h
      simp only [Except.error.injEq] at h
      exact ⟨c, by simp, hn, h.symm⟩
    | some cn =>
      rw [hn] at h
      dsimp only at h
      cases hrest : buildEdges nodes cur cs with
      | error e' =>
        rw [hrest] at h
        simp only [Except.error.injEq] at h
        subst h
        rcases ih hrest with ⟨c', hc', hn', he'⟩
        exact ⟨c', List.mem_cons_of_mem _ hc', hn', he'⟩
      | ok es => rw [hrest] at h; cases h

lemma buildEdges_ok_of_present {nodes : NodeMap} {cur : String} :
    ∀ {children : List String},
      (∀ c ∈ children, (nmGet nodes c).isSome) →
      ∃ es, buildEdges nodes cur children = .ok es := by
  intro children
  induction children with
  | nil => intro _; exact ⟨[], rfl⟩
  | cons c cs ih =>
    intro hall
    rcases Option.isSome_iff_exists.mp (hall c (by simp)) with ⟨cn, hcn⟩
    rcases ih (fun x hx => hall x (List.mem_cons_of_mem _ hx)) with ⟨es, hes⟩
    refine ⟨⟨"edge-" ++ cur ++ "-" ++ c, cur, c, "smoothstep", cn.decisionText⟩ :: es, ?_⟩
    rw [buildEdges, hcn]
    dsimp only
    rw [hes]

lemma buildEdges_ok_props {nodes : NodeMap} {cur : String} :
    ∀ {children : List String} {es : List FlowEdge},
      buildEdges nodes cur children = .ok es →
      es.map (fun e => (e.source, e.target)) = children.map (fun c => (cur, c)) ∧
      (∀ e ∈ es, e.source = cur ∧ e.target ∈ children ∧
        e.eid = "edge-" ++ cur ++ "-" ++ e.target ∧ e.edgeType = "smoothstep" ∧
        ∃ cn, nmGet nodes e.target = some cn ∧ e.label = cn.decisionText) ∧
      (∀ c ∈ children, ∃ e ∈ es, e.source = cur ∧ e.target = c) := by
  intro children
  induction children with
  | nil =>
    intro es h
    simp only [buildEdges, Except.ok.injEq] at h
    subst h
    exact ⟨rfl, by simp, by simp⟩
  | cons c cs ih =>
    intro es h
    rw [buildEdges] at h
    cases hn : nmGet nodes c with
    | none => rw [hn] at h; cases h
    | some cn =>
      rw [hn] at h
      dsimp only at h
      cases hrest : buildEdges nodes cur cs with
      | error e' => rw [hrest] at h; cases h
      | ok es' =>
        rw [hrest] at h
        simp only [Except.ok.injEq] at h
        subst h
        rcases ih hrest with ⟨hmap, hprops, hcov⟩
        refine ⟨?_, ?_, ?_⟩
        · simp only [List.map_cons, hmap]
        · intro e he
          simp only [List.mem_cons] at he
          rcases he with rfl | he
          · exact ⟨rfl, by simp, rfl, rfl, cn, hn, rfl⟩
          · rcases hprops e he with ⟨h1, h2, h3, h4, h5⟩
            exact ⟨h1, List.mem_cons_of_mem _ h2, h3, h4, h5⟩
        · intro x hx
          simp only [List.mem_cons] at hx
          rcases hx with rfl | hx
          · exact ⟨⟨"edge-" ++ cur ++ "-" ++ x, cur, x, "smoothstep", cn.decisionText⟩,
              by simp, rfl, rfl⟩
          · rcases hcov x hx with ⟨e, he, h1, h2⟩
            exact ⟨e, List.mem_cons_of_mem _ he, h1, h2⟩

lemma sumUnvisited_cons (p : String × List String) (rest : TreeStructure) (vis : List String) :
    sumUnvisited (p :: rest) vis =
      (if vis.contains p.1 then 0 else p.2.length) + sumUnvisited rest vis := by
  unfold sumUnvisited
  rw [List.filter_cons]
  by_cases hb : vis.contains p.1
  · have hbm : p.1 ∈ vis := List.elem_iff.mp hb
    simp [hb, hbm]
  · have hbm : p.1 ∉ vis := fun hc => hb (List.elem_iff.mpr hc)
    simp [hb, hbm]

lemma sumUnvisited_mono (struct : TreeStructure) : ∀ (vis vis' : List String),
    (∀ x ∈ vis, x ∈ vis') → sumUnvisited struct vis' ≤ sumUnvisited struct vis := by
  induction struct with
  | nil =>
    intro _ _ _
    exact Nat.le_refl _
  | cons p rest ih =>
    intro vis vis' h
    rw [sumUnvisited_cons, sumUnvisited_cons]
    have ihh := ih vis vis' h
    by_cases hb' : vis'.contains p.1
    · rw [if_pos hb']
      by_cases hbv : vis.contains p.1
      · rw [if_pos hbv]
        omega
      · rw [if_neg hbv]
        omega
    · rw [if_neg hb']
      have hbv : ¬ vis.contains p.1 = true := by
        intro hcon
        exact hb' (List.elem_iff.mpr (h _ (List.elem_iff.mp hcon)))
      rw [if_neg hbv]
      omega

lemma sumUnvisited_process (struct : TreeStructure) : ∀ (vis : List String) (cur : String)
    (cs : List String), structFind struct cur = some cs → ¬ vis.contains cur = true →
    sumUnvisited struct (cur :: vis) + cs.length ≤ sumUnvisited struct vis := by
  induction struct with
  | nil =>
    intro vis cur cs hf _
    cases hf
  | cons p rest ih =>
    intro vis cur cs hf hnv
    rw [sumUnvisited_cons, sumUnvisited_cons]
    by_cases hp : p.1 = cur
    · have hfind : List.find? (fun q => q.1 == cur) (p :: rest) = some p :=
        List.find?_cons_of_pos _ (by simp [hp])
      have hcs : cs = p.2 := by
        unfold structFind at hf
        rw [hfind] at hf
        simp only [Option.map_some', Option.some.injEq] at hf
        rw [← hf]
      have h1 : (cur :: vis).contains p.1 = true := by
        rw [hp]
        simp [List.elem_iff]
      have h2 : ¬ vis.contains p.1 = true := by
        rw [hp]
        exact hnv
      rw [if_pos h1, if_neg h2, hcs]
      have := sumUnvisited_mono rest vis (cur :: vis) (fun x hx => List.mem_cons_of_mem _ hx)
      omega
    · have hfind : List.find? (fun q => q.1 == cur) (p :: rest) =
          List.find? (fun q => q.1 == cur) rest :=
        List.find?_cons_of_neg _ (by simp [hp])
      have hf' : structFind rest cur = some cs := by
        unfold structFind at hf ⊢
        rw [hfind] at hf
        exact hf
      have hsame : (cur :: vis).contains p.1 = vis.contains p.1 := by
        simp [List.elem_iff, List.mem_cons, hp]
      rw [hsame]
      have := ih vis cur cs hf' hnv
      by_cases hbv : vis.contains p.1
      · rw [if_pos hbv]
        omega
      · rw [if_neg hbv]
        omega

lemma bfsLoop_error_class (nodes : NodeMap) (struct : TreeStructure) :
    ∀ (fuel : Nat) (queue vis : List String) (accN : List FlowNode) (accE : List FlowEdge)
      (e : FError), bfsLoop nodes struct fuel queue vis accN accE = .error e →
      e = .fuelOut ∨ e.isNF = true := by
  intro fuel
  induction fuel with
  | zero =>
    intro queue vis accN accE e h
    rw [bfsLoop_zero] at h
    simp only [Except.error.injEq] at h
    exact .inl h.symm
  | succ fuel ih =>
    intro queue vis accN accE e h
    cases queue with
    | nil => rw [bfsLoop_succ_nil] at h; cases h
    | cons cur rest =>
      rw [bfsLoop_succ_cons] at h
      by_cases hv : vis.contains cur
      · rw [if_pos hv] at h
        exact ih _ _ _ _ _ h
      · rw [if_neg hv] at h
        cases hn : nmGet nodes cur with
        | none =>
          rw [hn] at h
          simp only [Except.error.injEq] at h
          subst h
          exact .inr rfl
        | some sn =>
          rw [hn] at h
          dsimp only at h
          cases hs : structFind struct cur with
          | none =>
            rw [hs] at h
            simp only [Except.error.injEq] at h
            subst h
            exact .inr rfl
          | some cs =>
            rw [hs] at h
            dsimp only at h
            cases hbe : buildEdges nodes cur cs with
            | error e' =>
              rw [hbe] at h
              simp only [Except.error.injEq] at h
              subst h
              rcases buildEdges_error hbe with ⟨c, _, _, rfl⟩
              exact .inr rfl
            | ok es =>
              rw [hbe] at h
              dsimp only at h
              exact ih _ _ _ _ _ h

lemma bfsLoop_ne_fuelOut (nodes : NodeMap) (struct : TreeStructure) :
    ∀ (fuel : Nat) (queue vis : List String) (accN : List FlowNode) (accE : List FlowEdge),
      queue.length + sumUnvisited struct vis < fuel →
      bfsLoop nodes struct fuel queue vis accN accE ≠ .error .fuelOut := by
  intro fuel
  induction fuel with
  | zero =>
    intro queue vis accN accE hm
    omega
  | succ fuel ih =>
    intro queue vis accN accE hm
    cases queue with
    | nil =>
      rw [bfsLoop_succ_nil]
      intro hcon
      cases hcon
    | cons cur rest =>
      rw [bfsLoop_succ_cons]
      by_cases hv : vis.contains cur
      · rw [if_pos hv]
        refine ih _ _ _ _ ?_
        simp only [List.length_cons] at hm
        omega
      · rw [if_neg hv]
        cases hn : nmGet nodes cur with
        | none => intro hcon; cases hcon
        | some sn =>
          dsimp only
          cases hs : structFind struct cur with
          | none => intro hcon; cases hcon
          | some cs =>
            dsimp only
            cases hbe : buildEdges nodes cur cs with
            | error e' =>
              rcases buildEdges_error hbe with ⟨c, _, _, rfl⟩
              intro hcon
              cases hcon
            | ok es =>
              dsimp only
              refine ih _ _ _ _ ?_
              have hdec := sumUnvisited_process struct vis cur cs hs hv
              simp only [List.length_append, List.length_cons] at hm ⊢
              omega

lemma childrenOf_eq_of_structFind {struct : TreeStructure} {a : String} {cs : List String}
    (h : structFind struct a = some cs) : childrenOf struct a = cs := by
  unfold childrenOf
  rw [h]
  rfl

lemma bfsLoop_ok_props (nodes : NodeMap) (struct : TreeStructure) :
    ∀ (fuel : Nat) (queue vis : List String) (accN : List FlowNode) (accE : List FlowEdge)
      (res : FlowStructureR),
      bfsLoop nodes struct fuel queue vis accN accE = .ok res →
      (∀ x, x ∈ vis ↔ x ∈ accN.map FlowNode.id) →
      (accN.map FlowNode.id).Nodup →
      (∃ newN newE, res.nodes = accN ++ newN ∧ res.edges = accE ++ newE) ∧
      (res.nodes.map FlowNode.id).Nodup ∧
      (∀ q ∈ queue, q ∈ res.nodes.map FlowNode.id) ∧
      (∀ fn ∈ res.nodes, fn ∉ accN →
        nmGet nodes fn.id = some fn.storyNode ∧
        structFind struct fn.id = some (childrenOf struct fn.id) ∧
        fn.isLeaf = (childrenOf struct fn.id).isEmpty ∧
        fn.nodeType = "custom" ∧ fn.position = (0, 0) ∧
        (∀ c ∈ childrenOf struct fn.id, c ∈ res.nodes.map FlowNode.id ∧
          ∃ e ∈ res.edges, e.source = fn.id ∧ e.target = c)) ∧
      (∀ e ∈ res.edges, e ∉ accE →
        e.target ∈ childrenOf struct e.source ∧
        e.eid = "edge-" ++ e.source ++ "-" ++ e.target ∧ e.edgeType = "smoothstep" ∧
        (∃ cn, nmGet nodes e.target = some cn ∧ e.label = cn.decisionText)) := by
  intro fuel
  induction fuel with
  | zero =>
    intro queue vis accN accE res h
    rw [bfsLoop_zero] at h
    cases h
  | succ fuel ih =>
    intro queue vis accN accE res h hiv hnd
    cases queue with
    | nil =>
      rw [bfsLoop_succ_nil] at h
      simp only [Except.ok.injEq] at h
      subst h
      refine ⟨⟨[], [], by simp, by simp⟩, by simpa using hnd, by simp, ?_, ?_⟩
      · intro fn hfn hnot
        exact absurd hfn hnot
      · intro e he hnot
        exact absurd he hnot
    | cons cur rest =>
      rw [bfsLoop_succ_cons] at h
      by_cases hv : vis.contains cur
      · rw [if_pos hv] at h
        rcases ih rest vis accN accE res h hiv hnd with ⟨hex, hnd2, hq, hfn, he⟩
        refine ⟨hex, hnd2, ?_, hfn, he⟩
        intro q hq2
        simp only [List.mem_cons] at hq2
        rcases hq2 with rfl | hq2
        · have : q ∈ accN.map FlowNode.id := (hiv q).mp (List.elem_iff.mp hv)
          rcases hex with ⟨newN, _, hres, _⟩
          rw [hres, List.map_append]
          exact List.mem_append.mpr (.inl this)
        · exact hq q hq2
      · rw [if_neg hv] at h
        cases hn : nmGet nodes cur with
        | none => rw [hn] at h; cases h
        | some sn =>
          rw [hn] at h
          dsimp only at h
          cases hs : structFind struct cur with
          | none => rw [hs] at h; cases h
          | some cs =>
            rw [hs] at h
            dsimp only at h
            cases hbe : buildEdges nodes cur cs with
            | error e' => rw [hbe] at h; cases h
            | ok es =>
              rw [hbe] at h
              dsimp only at h
              have hccur : childrenOf struct cur = cs := childrenOf_eq_of_structFind hs
              have hcurnotin : cur ∉ accN.map FlowNode.id := by
                intro hcon
                exact hv (List.elem_iff.mpr ((hiv cur).mpr hcon))
              have hiv' : ∀ x, x ∈ cur :: vis ↔
                  x ∈ (accN ++ [(⟨cur, "custom", (0, 0), sn, cs.isEmpty⟩ : FlowNode)]).map
                    FlowNode.id := by
                intro x
                simp only [List.mem_cons, List.map_append, List.mem_append, List.map_cons,
                  List.map_nil, List.mem_singleton]
                rw [hiv x]
                tauto
              have hnd' : ((accN ++ [(⟨cur, "custom", (0, 0), sn, cs.isEmpty⟩ : FlowNode)]).map
                  FlowNode.id).Nodup := by
                rw [List.map_append]
                rw [List.nodup_append]
                refine ⟨hnd, by simp, ?_⟩
                intro x hx
                simp only [List.map_cons, List.map_nil, List.mem_singleton]
                intro hcon
                subst hcon
                exact hcurnotin hx
              rcases ih (rest ++ cs) (cur :: vis) _ _ res h hiv' hnd'
                with ⟨⟨newN, newE, hresN, hresE⟩, hnd2, hq, hfn, he⟩
              have haccsub : ∀ x ∈ accN.map FlowNode.id, x ∈ res.nodes.map FlowNode.id := by
                intro x hx
                rw [hresN, List.map_append, List.map_append]
                exact List.mem_append.mpr (.inl (List.mem_append.mpr (.inl hx)))
              have hcurin : cur ∈ res.nodes.map FlowNode.id := by
                rw [hresN, List.map_append, List.map_append]
                exact List.mem_append.mpr (.inl (List.mem_append.mpr (.inr (by simp))))
              refine ⟨⟨(⟨cur, "custom", (0, 0), sn, cs.isEmpty⟩ : FlowNode) :: newN,
                  es ++ newE, by rw [hresN]; simp, by rw [hresE]; simp⟩, hnd2, ?_, ?_, ?_⟩
              · intro q hq2
                simp only [List.mem_cons] at hq2
                rcases hq2 with rfl | hq2
                · exact hcurin
                · exact hq q (List.mem_append.mpr (.inl hq2))
              · intro fn hfn2 hnot
                by_cases hfnacc : fn ∈ accN ++ [(⟨cur, "custom", (0, 0), sn, cs.isEmpty⟩ :
                    FlowNode)]
                · have hfneq : fn = ⟨cur, "custom", (0, 0), sn, cs.isEmpty⟩ := by
                    rcases List.mem_append.mp hfnacc with hl | hr
                    · exact absurd hl hnot
                    · simpa using hr
                  subst hfneq
                  refine ⟨hn, by rw [hccur]; exact hs, by rw [hccur], rfl, rfl, ?_⟩
                  intro c hc
                  rw [hccur] at hc
                  constructor
                  · exact hq c (List.mem_append.mpr (.inr hc))
                  · rcases (buildEdges_ok_props hbe).2.2 c hc with ⟨e, hees, h1, h2⟩
                    refine ⟨e, ?_, h1, h2⟩
                    rw [hresE]
                    exact List.mem_append.mpr (.inl (List.mem_append.mpr (.inr hees)))
                · rcases hfn fn hfn2 hfnacc with ⟨p1, p2, p3, p4, p5, p6⟩
                  exact ⟨p1, p2, p3, p4, p5, p6⟩
              · intro e he2 hnot
                by_cases heacc : e ∈ accE ++ es
                · have hees : e ∈ es := by
                    rcases List.mem_append.mp heacc with hl | hr
                    · exact absurd hl hnot
                    · exact hr
                  rcases (buildEdges_ok_props hbe).2.1 e hees with ⟨h1, h2, h3, h4, h5⟩
                  refine ⟨?_, ?_, h4, h5⟩
                  · rw [h1, hccur]
                    exact h2
                  · rw [h1]
                    exact h3
                · exact he e he2 heacc

lemma bfsLoop_top_props {nodes : NodeMap} {struct : TreeStructure} {rootId : String}
    {fuel : Nat} {res : FlowStructureR}
    (h : bfsLoop nodes struct fuel [rootId] [] [] [] = .ok res) :
    rootId ∈ res.nodes.map FlowNode.id ∧
    (res.nodes.map FlowNode.id).Nodup ∧
    (∀ fn ∈ res.nodes,
      nmGet nodes fn.id = some fn.storyNode ∧
      structFind struct fn.id = some (childrenOf struct fn.id) ∧
      fn.isLeaf = (childrenOf struct fn.id).isEmpty ∧
      (∀ c ∈ childrenOf struct fn.id, c ∈ res.nodes.map FlowNode.id ∧
        ∃ e ∈ res.edges, e.source = fn.id ∧ e.target = c)) ∧
    (∀ e ∈ res.edges,
      e.target ∈ childrenOf struct e.source ∧
      e.eid = "edge-" ++ e.source ++ "-" ++ e.target ∧
      (∃ cn, nmGet nodes e.target = some cn ∧ e.label = cn.decisionText)) := by
  rcases bfsLoop_ok_props nodes struct fuel [rootId] [] [] [] res h
      (by intro x; constructor
          · intro hx; cases hx
          · intro hx; cases hx)
      List.nodup_nil with ⟨_, hnd2, hq, hfn, he⟩
  refine ⟨hq rootId (by simp), hnd2, ?_, ?_⟩
  · intro fn hfn2
    rcases hfn fn hfn2 (List.not_mem_nil fn) with ⟨p1, p2, p3, _, _, p6⟩
    exact ⟨p1, p2, p3, p6⟩
  · intro e he2
    rcases he e he2 (List.not_mem_nil e) with ⟨p1, p2, _, p4⟩
    exact ⟨p1, p2, p4⟩

lemma bfsLoop_top_reach {nodes : NodeMap} {struct : TreeStructure} {rootId : String}
    {fuel : Nat} {res : FlowStructureR}
    (h : bfsLoop nodes struct fuel [rootId] [] [] [] = .ok res) :
    ∀ b, Reach struct rootId b → b ∈ res.nodes.map FlowNode.id := by
  rcases bfsLoop_top_props h with ⟨hroot, _, hfn, _⟩
  intro b hb
  induction hb with
  | refl => exact hroot
  | tail hr hstep ih =>
    rename_i bmid cend
    rcases List.mem_map.mp ih with ⟨fn, hfnmem, hfnid⟩
    rcases hfn fn hfnmem with ⟨_, _, _, hkids⟩
    have : cend ∈ childrenOf struct fn.id := by
      rw [hfnid]
      exact hstep
    exact (hkids cend this).1

lemma bfsLoop_good_ok (nodes : NodeMap) (struct : TreeStructure) (rootId : String)
    (hGood : ∀ a, Reach struct rootId a →
      (structFind struct a).isSome ∧ ∀ c ∈ childrenOf struct a, (nmGet nodes c).isSome) :
    ∀ (fuel : Nat) (queue vis : List String) (accN : List FlowNode) (accE : List FlowEdge),
      (∀ q ∈ queue, Reach struct rootId q ∧ (nmGet nodes q).isSome) →
      queue.length + sumUnvisited struct vis < fuel →
      ∃ res, bfsLoop nodes struct fuel queue vis accN accE = .ok res := by
  intro fuel
  induction fuel with
  | zero =>
    intro queue vis accN accE _ hm
    omega
  | succ fuel ih =>
    intro queue vis accN accE hq hm
    cases queue with
    | nil => exact ⟨_, bfsLoop_succ_nil _ _ _ _ _ _⟩
    | cons cur rest =>
      rw [bfsLoop_succ_cons]
      by_cases hv : vis.contains cur
      · rw [if_pos hv]
        refine ih rest vis accN accE (fun q hq2 => hq q (List.mem_cons_of_mem _ hq2)) ?_
        simp only [List.length_cons] at hm
        omega
      · rw [if_neg hv]
        rcases hq cur (by simp) with ⟨hreach, hpres⟩
        rcases Option.isSome_iff_exists.mp hpres with ⟨sn, hsn⟩
        rw [hsn]
        dsimp only
        rcases Option.isSome_iff_exists.mp (hGood cur hreach).1 with ⟨cs, hcs⟩
        rw [hcs]
        dsimp only
        have hccur : childrenOf struct cur = cs := childrenOf_eq_of_structFind hcs
        have hkidspres : ∀ c ∈ cs, (nmGet nodes c).isSome := by
          intro c hc
          refine (hGood cur hreach).2 c ?_
          rw [hccur]
          exact hc
        rcases buildEdges_ok_of_present hkidspres with ⟨es, hes⟩
        rw [hes]
        dsimp only
        refine ih (rest ++ cs) (cur :: vis) _ _ ?_ ?_
        · intro q hq2
          rcases List.mem_append.mp hq2 with hl | hr
          · exact hq q (List.mem_cons_of_mem _ hl)
          · refine ⟨.tail hreach (by rw [hccur]; exact hr), hkidspres q hr⟩
        · have hdec := sumUnvisited_process struct vis cur cs hcs hv
          simp only [List.length_append, List.length_cons] at hm ⊢
          omega

lemma sumUnvisited_nil_vis (struct : TreeStructure) :
    sumUnvisited struct [] = (struct.map (fun p => p.2.length)).sum := by
  simp [sumUnvisited]

lemma bfsFuel_enough (struct : TreeStructure) :
    ([] : List String).length + 1 + sumUnvisited struct [] < bfsFuel struct := by
  rw [sumUnvisited_nil_vis, bfsFuel]
  simp only [List.length_nil]
  omega

/-- C8 counterexample: with nodes `{a, b}` and structure `{a:[b]}` the
node `b` is reachable but has no entry in the structure; the claim says
this input returns a `FlowGraph`, but the code throws `NotFound` ("not
found in tree structure") when it dequeues `b`. -/
theorem buildFlowStructure_missingEntry_cex :
    buildFlowStructure [("a", ⟨"a", "A", "x", none⟩), ("b", ⟨"b", "B", "x", none⟩)]
      [("a", ["b"])] "a" = .error (.notFoundInStruct "b") := by
  decide

/-- C8 (amended): `buildFlowStructure` fails with `EmptyInput` exactly
when the node mapping is empty; when it is non-empty, it fails with a
`NotFound`-category error exactly when the root is absent from the node
mapping or from the structure, or some node reachable from the root lacks
a structure entry, or some reachable node lists a child absent from the
node mapping; on every other input it returns a `FlowGraph` without
raising an error.  (The claim's exception for reachable non-root nodes
without a structure entry is wrong: the code throws `NotFound` for them.) -/
theorem buildFlowStructure_errors (nodes : NodeMap) (struct : TreeStructure) (rootId : String) :
    (buildFlowStructure nodes struct rootId = .error .emptyInput ↔ nodes = []) ∧
    (nodes ≠ [] →
      ((∃ e, buildFlowStructure nodes struct rootId = .error e ∧ e.isNF = true) ↔
        FlowBad nodes struct rootId)) := by
  constructor
  · constructor
    · intro h
      by_cases hne : nodes = []
      · exact hne
      · exfalso
        have h0 : nodes.isEmpty = false := by
          rw [← Bool.not_eq_true, List.isEmpty_iff]
          exact hne
        unfold buildFlowStructure at h
        rw [h0] at h
        simp only [Bool.false_eq_true, if_false] at h
        by_cases h1 : (nmGet nodes rootId).isNone
        · rw [if_pos h1] at h
          cases h
        · rw [if_neg h1] at h
          by_cases h2 : (structFind struct rootId).isNone
          · rw [if_pos h2] at h
            cases h
          · rw [if_neg h2] at h
            rcases bfsLoop_error_class nodes struct _ _ _ _ _ _ h with hfo | hnf
            · cases hfo
            · cases hnf
    · intro h
      subst h
      rfl
  · intro hne
    have h0 : nodes.isEmpty = false := by
      rw [← Bool.not_eq_true, List.isEmpty_iff]
      exact hne
    constructor
    · rintro ⟨e, herr, hisnf⟩
      by_contra hnb
      unfold FlowBad at hnb
      push_neg at hnb
      rcases hnb with ⟨hroot, hsf, hreachgood⟩
      have hGood : ∀ a, Reach struct rootId a →
          (structFind struct a).isSome ∧
          ∀ c ∈ childrenOf struct a, (nmGet nodes c).isSome := by
        intro a hra
        rcases hreachgood a hra with ⟨hsfa, hkids⟩
        constructor
        · cases hopt : structFind struct a with
          | none => exact absurd (by rw [hopt]; rfl) hsfa
          | some _ => rfl
        · intro c hc
          cases hopt : nmGet nodes c with
          | none => exact absurd (by rw [hopt]; rfl) (hkids c hc)
          | some _ => rfl
      rcases bfsLoop_good_ok nodes struct rootId hGood (bfsFuel struct) [rootId] [] [] []
          (by intro q hq
              simp only [List.mem_singleton] at hq
              refine ⟨by rw [hq]; exact .refl rootId, ?_⟩
              rw [hq]
              cases hopt : nmGet nodes rootId with
              | none => exact absurd (by rw [hopt]; rfl) hroot
              | some _ => rfl)
          (by have := bfsFuel_enough struct
              simpa using this)
        with ⟨res, hres⟩
      unfold buildFlowStructure at herr
      rw [h0] at herr
      simp only [Bool.false_eq_true, if_false] at herr
      rw [if_neg (by intro hcon; exact hroot hcon),
        if_neg (by intro hcon; exact hsf hcon), hres] at herr
      cases herr
    · intro hbad
      by_cases h1 : (nmGet nodes rootId).isNone
      · refine ⟨.notFoundInNodes rootId, ?_, rfl⟩
        unfold buildFlowStructure
        rw [h0]
        simp only [Bool.false_eq_true, if_false]
        rw [if_pos h1]
      · by_cases h2 : (structFind struct rootId).isNone
        · refine ⟨.notFoundInStruct rootId, ?_, rfl⟩
          unfold buildFlowStructure
          rw [h0]
          simp only [Bool.false_eq_true, if_false]
          rw [if_neg h1, if_pos h2]
        · rcases hbad with hb1 | hb2 | ⟨a, hra, hb3⟩
          · exact absurd hb1 h1
          · exact absurd hb2 h2
          · cases hres : bfsLoop nodes struct (bfsFuel struct) [rootId] [] [] [] with
            | ok res =>
              exfalso
              have hain := bfsLoop_top_reach hres a hra
              rcases List.mem_map.mp hain with ⟨fn, hfnmem, hfnid⟩
              rcases (bfsLoop_top_props hres).2.2.1 fn hfnmem with ⟨_, hsfa, _, hkids⟩
              rcases hb3 with hb3a | ⟨c, hc, hcnone⟩
              · rw [hfnid] at hsfa
                rw [hsfa] at hb3a
                cases hb3a
              · have hcin : c ∈ childrenOf struct fn.id := by
                  rw [hfnid]
                  exact hc
                rcases (hkids c hcin).1 with hcS
                rcases List.mem_map.mp hcS with ⟨fnc, hfncmem, hfncid⟩
                rcases (bfsLoop_top_props hres).2.2.1 fnc hfncmem with ⟨hgetc, _, _, _⟩
                rw [hfncid] at hgetc
                have hnone : nmGet nodes c = none := Option.isNone_iff_eq_none.mp hcnone
                rw [hnone] at hgetc
                cases hgetc
            | error e =>
              have hnenf := bfsLoop_ne_fuelOut nodes struct (bfsFuel struct) [rootId] [] [] []
                (by have := bfsFuel_enough struct
                    simpa using this)
              rcases bfsLoop_error_class nodes struct _ _ _ _ _ _ hres with rfl | hnf
              · exact absurd hres hnenf
              · refine ⟨e, ?_, hnf⟩
                unfold buildFlowStructure
                rw [h0]
                simp only [Bool.false_eq_true, if_false]
                rw [if_neg h1, if_neg h2]
                exact hres

theorem buildFlowStructure_errors_witness :
    (([("a", ⟨"a", "A", "x", none⟩), ("b", ⟨"b", "B", "x", none⟩)] : NodeMap) ≠ []) ∧
    ((∃ e, buildFlowStructure [("a", ⟨"a", "A", "x", none⟩), ("b", ⟨"b", "B", "x", none⟩)]
        [("a", ["b"])] "a" = .error e ∧ e.isNF = true) ↔
      FlowBad [("a", ⟨"a", "A", "x", none⟩), ("b", ⟨"b", "B", "x", none⟩)]
        [("a", ["b"])] "a") :=
  ⟨by decide,
    (buildFlowStructure_errors [("a", ⟨"a", "A", "x", none⟩), ("b", ⟨"b", "B", "x", none⟩)]
      [("a", ["b"])] "a").2 (by decide)⟩

lemma structFind_children_nodup {struct : TreeStructure} (hknd : ∀ p ∈ struct, p.2.Nodup)
    {cur : String} {cs : List String} (h : structFind struct cur = some cs) : cs.Nodup := by
  unfold structFind at h
  cases hf : List.find? (fun p => p.1 == cur) struct with
  | none => rw [hf] at h; cases h
  | some pr =>
    rw [hf] at h
    simp only [Option.map_some', Option.some.injEq] at h
    rw [← h]
    exact hknd pr (List.mem_of_find?_eq_some hf)

lemma bfsLoop_ok_edges_nodup (nodes : NodeMap) (struct : TreeStructure)
    (hknd : ∀ p ∈ struct, p.2.Nodup) :
    ∀ (fuel : Nat) (queue vis : List String) (accN : List FlowNode) (accE : List FlowEdge)
      (res : FlowStructureR),
      bfsLoop nodes struct fuel queue vis accN accE = .ok res →
      (accE.map (fun e => (e.source, e.target))).Nodup →
      (∀ e ∈ accE, e.source ∈ vis) →
      (res.edges.map (fun e => (e.source, e.target))).Nodup := by
  intro fuel
  induction fuel with
  | zero =>
    intro queue vis accN accE res h
    rw [bfsLoop_zero] at h
    cases h
  | succ fuel ih =>
    intro queue vis accN accE res h hend hsrc
    cases queue with
    | nil =>
      rw [bfsLoop_succ_nil] at h
      simp only [Except.ok.injEq] at h
      subst h
      exact hend
    | cons cur rest =>
      rw [bfsLoop_succ_cons] at h
      by_cases hv : vis.contains cur
      · rw [if_pos hv] at h
        exact ih _ _ _ _ _ h hend hsrc
      · rw [if_neg hv] at h
        cases hn : nmGet nodes cur with
        | none => rw [hn] at h; cases h
        | some sn =>
          rw [hn] at h
          dsimp only at h
          cases hs : structFind struct cur with
          | none => rw [hs] at h; cases h
          | some cs =>
            rw [hs] at h
            dsimp only at h
            cases hbe : buildEdges nodes cur cs with
            | error e' => rw [hbe] at h; cases h
            | ok es =>
              rw [hbe] at h
              dsimp only at h
              refine ih _ _ _ _ _ h ?_ ?_
              · rw [List.map_append, List.nodup_append]
                refine ⟨hend, ?_, ?_⟩
                · rw [(buildEdges_ok_props hbe).1]
                  refine List.Nodup.map ?_ (structFind_children_nodup hknd hs)
                  intro x y hxy
                  simpa using hxy
                · intro x hx
                  rcases List.mem_map.mp hx with ⟨e, he, hx2⟩
                  intro hcon
                  rw [(buildEdges_ok_props hbe).1] at hcon
                  rcases List.mem_map.mp hcon with ⟨c, _, hc2⟩
                  have h1 : x.1 ∈ vis := by
                    rw [← hx2]
                    exact hsrc e he
                  have h2 : x.1 = cur := by
                    rw [← hc2]
                  rw [h2] at h1
                  exact hv (List.elem_iff.mpr h1)
              · intro e he
                rcases List.mem_append.mp he with hl | hr
                · exact List.mem_cons_of_mem _ (hsrc e hl)
                · have := ((buildEdges_ok_props hbe).2.1 e hr).1
                  rw [this]
                  exact List.mem_cons_self _ _

/-- C9 counterexample: a parent listing the same child twice makes the
builder emit two identical edges, so "each edge appears exactly once"
fails even though nodes here converge on no one. -/
theorem buildFlowStructure_dupEdge_cex :
    buildFlowStructure [("a", ⟨"a", "A", "x", none⟩), ("b", ⟨"b", "B", "x", none⟩)]
      [("a", ["b", "b"]), ("b", [])] "a" =
      .ok ⟨[⟨"a", "custom", (0, 0), ⟨"a", "A", "x", none⟩, false⟩,
            ⟨"b", "custom", (0, 0), ⟨"b", "B", "x", none⟩, true⟩],
           [⟨"edge-a-b", "a", "b", "smoothstep", none⟩,
            ⟨"edge-a-b", "a", "b", "smoothstep", none⟩]⟩ ∧
    ¬ (([⟨"edge-a-b", "a", "b", "smoothstep", none⟩,
         ⟨"edge-a-b", "a", "b", "smoothstep", none⟩] : List FlowEdge).map
        (fun e => (e.source, e.target))).Nodup := by
  exact ⟨by decide, by decide⟩

/-- C9 (amended): on every input on which `buildFlowStructure` succeeds
and in which no parent lists the same child twice, each reachable node id
appears exactly once among the returned nodes, tagged `isLeaf` iff its
child sequence is empty; each (source, target) pair appears exactly once
among the edges, every listed child of a reachable node has its edge,
and every edge has id `edge-{source}-{target}`, source the parent,
target the child, and label the child node's `decisionText` — regardless
of how many ancestors converge on a node.  (Without the no-duplicate
proviso a parent listing a child twice yields a duplicated edge.) -/
theorem buildFlowStructure_unique (nodes : NodeMap) (struct : TreeStructure) (rootId : String)
    (res : FlowStructureR)
    (hok : buildFlowStructure nodes struct rootId = .ok res)
    (hknd : ∀ p ∈ struct, p.2.Nodup) :
    (∀ b, Reach struct rootId b → (res.nodes.map FlowNode.id).count b = 1) ∧
    (∀ fn ∈ res.nodes, fn.isLeaf = (childrenOf struct fn.id).isEmpty) ∧
    (∀ e ∈ res.edges, e.eid = "edge-" ++ e.source ++ "-" ++ e.target ∧
      e.target ∈ childrenOf struct e.source ∧
      ∃ cn, nmGet nodes e.target = some cn ∧ e.label = cn.decisionText) ∧
    (res.edges.map (fun e => (e.source, e.target))).Nodup ∧
    (∀ a, Reach struct rootId a → ∀ c ∈ childrenOf struct a,
      ∃ e ∈ res.edges, e.source = a ∧ e.target = c) := by
  have hbfs : bfsLoop nodes struct (bfsFuel struct) [rootId] [] [] [] = .ok res := by
    unfold buildFlowStructure at hok
    by_cases h0 : nodes.isEmpty
    · rw [if_pos h0] at hok
      cases hok
    · rw [if_neg h0] at hok
      by_cases h1 : (nmGet nodes rootId).isNone
      · rw [if_pos h1] at hok
        cases hok
      · rw [if_neg h1] at hok
        by_cases h2 : (structFind struct rootId).isNone
        · rw [if_pos h2] at hok
          cases hok
        · rw [if_neg h2] at hok
          exact hok
  rcases bfsLoop_top_props hbfs with ⟨hroot, hnd, hfn, hedge⟩
  refine ⟨?_, ?_, ?_, ?_, ?_⟩
  · intro b hb
    exact List.count_eq_one_of_mem hnd (bfsLoop_top_reach hbfs b hb)
  · intro fn hfnm
    exact (hfn fn hfnm).2.2.1
  · intro e he
    rcases hedge e he with ⟨p1, p2, p4⟩
    exact ⟨p2, p1, p4⟩
  · exact bfsLoop_ok_edges_nodup nodes struct hknd _ _ _ _ _ _ hbfs (by simp)
      (by intro e he; cases he)
  · intro a hra c hc
    have hain := bfsLoop_top_reach hbfs a hra
    rcases List.mem_map.mp hain with ⟨fn, hm, hid⟩
    rcases hfn fn hm with ⟨_, _, _, hkids⟩
    have hcin : c ∈ childrenOf struct fn.id := by
      rw [hid]
      exact hc
    rcases (hkids c hcin).2 with ⟨e, hee, hsrce, htgt⟩
    refine ⟨e, hee, ?_, htgt⟩
    rw [hsrce, hid]

theorem buildFlowStructure_unique_witness :
    buildFlowStructure [("a", ⟨"a", "A", "x", none⟩), ("b", ⟨"b", "B", "x", some "go"⟩)]
      [("a", ["b"]), ("b", [])] "a" =
      .ok ⟨[⟨"a", "custom", (0, 0), ⟨"a", "A", "x", none⟩, false⟩,
            ⟨"b", "custom", (0, 0), ⟨"b", "B", "x", some "go"⟩, true⟩],
           [⟨"edge-a-b", "a", "b", "smoothstep", some "go"⟩]⟩ ∧
    (∀ b, Reach [("a", ["b"]), ("b", [])] "a" b →
      ((⟨[⟨"a", "custom", (0, 0), ⟨"a", "A", "x", none⟩, false⟩,
          ⟨"b", "custom", (0, 0), ⟨"b", "B", "x", some "go"⟩, true⟩],
         [⟨"edge-a-b", "a", "b", "smoothstep", some "go"⟩]⟩ : FlowStructureR).nodes.map
        FlowNode.id).count b = 1) := by
  have h : buildFlowStructure [("a", ⟨"a", "A", "x", none⟩), ("b", ⟨"b", "B", "x", some "go"⟩)]
      [("a", ["b"]), ("b", [])] "a" =
      .ok ⟨[⟨"a", "custom", (0, 0), ⟨"a", "A", "x", none⟩, false⟩,
            ⟨"b", "custom", (0, 0), ⟨"b", "B", "x", some "go"⟩, true⟩],
           [⟨"edge-a-b", "a", "b", "smoothstep", some "go"⟩]⟩ := by decide
  exact ⟨h, (buildFlowStructure_unique
    [("a", ⟨"a", "A", "x", none⟩), ("b", ⟨"b", "B", "x", some "go"⟩)]
    [("a", ["b"]), ("b", [])] "a" _ h (by decide)).1⟩
